import Mathlib

/-!
Verification development for the pgcommitfest patch-processing core.

This file gives a shallow embedding of the ring queue
(`pgcommitfest/commitfest/cfbot_queue.py`), the pipeline engine and notifier
(`pgcommitfest/commitfest/branchmanager_template.py`), the branch-history
store (`pgcommitfest/commitfest/models.py`) and the patch-applier stage
driver (`branchmanager_template.py` together with `branchmanager_local.py`),
and proves properties of the embedded operations.

Modelling conventions:
* Database rows are records in Lean lists kept in table (insertion) order;
  primary keys are `Nat` starting at 1, handed out by a `next_id` counter.
* `filter(...).first()` becomes `List.find?`; `objects.get(pk)` becomes
  `List.find?` plus an `Except.error` on a miss (Python raises).
* Timestamps are `Nat`; `datetime.now()` is passed in as a `now` argument.
* Python loops and recursion whose termination depends on the data receive
  a fuel parameter; running out of fuel returns `none`, marking a
  computation that would not have terminated in the source.
* Background threads are modelled by running the thread body to completion
  at the point of spawning; an exception escaping a thread leaves the
  database exactly as the thread left it (no rollback), matching CPython.
-/

/-- A row of the `CfbotQueueItem` table (`cfbot_queue.py`). -/
structure QItem where
  id : Nat
  patch_id : Nat
  message_id : String
  ignore_date : Option Nat
  processed_date : Option Nat
  ll_prev : Option Nat
  ll_next : Option Nat
  last_base_commit_sha : Option String
deriving DecidableEq, Repr

/-- The singleton `CfbotQueue` row plus its `CfbotQueueItem` rows, in table
order.  `next_id` is the auto-increment primary-key counter. -/
structure CfbotQueue where
  items : List QItem
  current_queue_item : Option Nat
  next_id : Nat
deriving DecidableEq, Repr

/-- The queue as created at install time: no items, null cursor. -/
def emptyQueue : CfbotQueue := { items := [], current_queue_item := none, next_id := 1 }

/-- `CfbotQueueItem.objects.filter(id=i).first()` restricted to this queue. -/
def findItem (q : CfbotQueue) (i : Nat) : Option QItem :=
  q.items.find? (fun it => it.id = i)

/-- Saving a fetched row object back: rewrite the row with primary key `i`. -/
def updRow (q : CfbotQueue) (i : Nat) (f : QItem → QItem) : CfbotQueue :=
  { q with items := q.items.map (fun it => if it.id = i then f it else it) }

/-- `item.delete()`: drop the row with primary key `i`. -/
def delRow (q : CfbotQueue) (i : Nat) : CfbotQueue :=
  { q with items := q.items.filter (fun it => it.id ≠ i) }

/-- `CfbotQueue.get_first_item`: the first row whose `ll_prev` is null. -/
def get_first_item (q : CfbotQueue) : Option QItem :=
  q.items.find? (fun it => it.ll_prev = none)

/-- `CfbotQueue.peek`: the row at the cursor, without mutation. -/
def peek (q : CfbotQueue) : Option QItem :=
  match q.current_queue_item with
  | none => none
  | some cid => findItem q cid

/-- Error text used for `remove_item` on an unknown id (`ValueError`). -/
def removeNotFoundMsg (item_id : Nat) : String :=
  "Item with patch_id " ++ toString item_id ++ " not found in the queue."

/-- First step of `remove_item`: update the previous item's `ll_next` to
skip the item being removed, when that row exists. -/
def removePrevFix (q : CfbotQueue) (item : QItem) : CfbotQueue :=
  match item.ll_prev with
  | none => q
  | some p =>
    match findItem q p with
    | none => q
    | some _ => updRow q p (fun it => { it with ll_next := item.ll_next })

/-- Second step of `remove_item`: update the next item's `ll_prev`. -/
def removeNextFix (q : CfbotQueue) (item : QItem) : CfbotQueue :=
  match item.ll_next with
  | none => q
  | some n =>
    match findItem q n with
    | none => q
    | some _ => updRow q n (fun it => { it with ll_prev := item.ll_prev })

/-- Third step of `remove_item`: move the cursor off the removed item,
wrapping to the first item (or to null when the item is the sole one). -/
def removeCursorFix (q : CfbotQueue) (item : QItem) : Except String CfbotQueue :=
  if q.current_queue_item = some item.id then
    match item.ll_next with
    | some n => .ok { q with current_queue_item := some n }
    | none =>
      match get_first_item q with
      | some f =>
        if f.id = item.id then .ok { q with current_queue_item := none }
        else .ok { q with current_queue_item := some f.id }
      | none => .error "AttributeError: first_item is None"
  else .ok q

/-- `CfbotQueue.remove_item` (`cfbot_queue.py` lines 23-76): splice the row
out of the doubly linked list, moving the cursor off it if needed, then
delete the row. -/
def remove_item (q : CfbotQueue) (item_id : Nat) : Except String CfbotQueue :=
  match findItem q item_id with
  | none => .error (removeNotFoundMsg item_id)
  | some item =>
    match removeCursorFix (removeNextFix (removePrevFix q item) item) item with
    | .error e => .error e
    | .ok q4 => .ok (delRow q4 item.id)

/-- The queue walk inside `CfbotQueue.insert_item` (`cfbot_queue.py` lines
88-140).  Arguments mirror the Python locals: the current `loop_item`,
`current_item` and `previous_item`.  Returns `none` when the fuel runs out
(the Python `while` would keep looping), otherwise `some target_item`
(where `target_item` may itself be `none`, as in the source). -/
def insertWalk (q : CfbotQueue) (first : Option QItem) :
    Nat → Option QItem → Option QItem → Option QItem → Option (Option QItem)
  | _, none, _, _ => some none
  | 0, some _, _, _ => none
  | fuel + 1, some li, cur, prev =>
    if q.current_queue_item = none then some none
    else if li.ll_next = none ∧ li.ll_prev = none then some (some li)
    else if cur.isSome ∧ some li.id = q.current_queue_item then some prev
    else if cur.isSome ∧ li.processed_date ≠ none then some prev
    else
      let cur' := if cur = none ∧ some li.id = q.current_queue_item then some li else cur
      let next : Option QItem :=
        match li.ll_next with
        | none => first
        | some nid => q.items.find? (fun it => it.id = nid)
      insertWalk q first fuel next cur' (some li)

/-- Fuel handed to the walk; shown sufficient for well-formed queues. -/
def walkFuel (q : CfbotQueue) : Nat := 2 * q.items.length + 3

/-- The insertion part of `CfbotQueue.insert_item` (`cfbot_queue.py` lines
88-187), entered after the duplicate-patch check: walk to the fair target
position, then create and link the new row (with the temporary `0`
sentinel in `ll_next`). -/
def insertPlace (q : CfbotQueue) (target? : Option QItem) (pid : Nat)
    (mid : String) : Except String (CfbotQueue × QItem) :=
    if q.current_queue_item = none then
      -- special case: the queue is empty
      let ni : QItem :=
        { id := q.next_id, patch_id := pid, message_id := mid, ignore_date := none,
          processed_date := none, ll_prev := none, ll_next := none,
          last_base_commit_sha := none }
      .ok ({ items := q.items ++ [ni], current_queue_item := some ni.id,
             next_id := q.next_id + 1 }, ni)
    else
      match target? with
      | none => .error "AttributeError: target_item is None"
      | some target =>
        let ni : QItem :=
          { id := q.next_id, patch_id := pid, message_id := mid, ignore_date := none,
            processed_date := none, ll_prev := some target.id,
            ll_next := match target.ll_next with
                       | some n => some n
                       | none => some 0,  -- sentinel, rewritten to none below
            last_base_commit_sha := none }
        let q1 : CfbotQueue := { q with items := q.items ++ [ni], next_id := q.next_id + 1 }
        let q2 : Except String CfbotQueue :=
          match target.ll_next with
          | none => .ok q1
          | some n =>
            match findItem q1 n with
            | none => .error "CfbotQueueItem matching query does not exist"
            | some _ => .ok (updRow q1 n (fun it => { it with ll_prev := some ni.id }))
        match q2 with
        | .error e => .error e
        | .ok q2' =>
          let q3 := updRow q2' target.id (fun it => { it with ll_next := some ni.id })
          -- `if not self.current_queue_item` is false here: cursor is non-null
          if ni.ll_next = some 0 then
            .ok (updRow q3 ni.id (fun it => { it with ll_next := none }),
                 { ni with ll_next := none })
          else
            .ok (q3, ni)

/-- `CfbotQueue.insert_item` after the duplicate-patch check: run the walk,
then place the new row. -/
def insert_fresh (q : CfbotQueue) (pid : Nat) (mid : String) :
    Except String (CfbotQueue × QItem) :=
  let first := get_first_item q
  match insertWalk q first (walkFuel q) first none none with
  | none => .error "insert_item walk does not terminate"
  | some target? => insertPlace q target? pid mid

/-- `CfbotQueue.insert_item` (`cfbot_queue.py` lines 78-187). -/
def insert_item (q : CfbotQueue) (pid : Nat) (mid : String) :
    Except String (CfbotQueue × QItem) :=
  match q.items.filter (fun it => it.patch_id = pid) with
  | [e] =>
    if e.message_id = mid then .ok (q, e)
    else
      -- remove and replace: new patch sets get a new start in the queue
      match remove_item q e.id with
      | .error msg => .error msg
      | .ok q' => insert_fresh q' pid mid
  | _ => insert_fresh q pid mid

/-- `CfbotQueue.get_and_move` (`cfbot_queue.py` lines 189-219): advance the
cursor, stamp the departed item's `processed_date`, recurse past ignored
items.  `none` marks exhausted fuel (the Python recursion would not have
returned). -/
def get_and_move (now : Nat) :
    Nat → CfbotQueue → Option (Except String (CfbotQueue × Option QItem × Option QItem))
  | 0, _ => none
  | fuel + 1, q =>
    match q.current_queue_item with
    | none => some (.ok (q, none, none))  -- no items in the queue
    | some cid =>
      match findItem q cid with
      | none => some (.error "CfbotQueueItem matching query does not exist")
      | some cur =>
        let nc : Except String Nat :=
          match cur.ll_next with
          | some n => .ok n
          | none =>
            -- wrap back to the front of the queue
            match get_first_item q with
            | some f => .ok f.id
            | none => .error "AttributeError: first_item is None"
        match nc with
        | .error e => some (.error e)
        | .ok ncid =>
          match findItem q ncid with
          | none => some (.error "CfbotQueueItem matching query does not exist")
          | some nxt =>
            let q1 : CfbotQueue :=
              { (updRow q cid (fun it => { it with processed_date := some now })) with
                current_queue_item := some ncid }
            if cur.ignore_date ≠ none then
              get_and_move now fuel q1
            else
              some (.ok (q1, some { cur with processed_date := some now }, some nxt))

-- sanity checks against the unit tests of the source repository
example :
    (insert_item emptyQueue 101 "msg101").toOption.map (fun r => r.2.patch_id) =
      some 101 := by decide

example :
    ((insert_item emptyQueue 101 "msg101").bind (fun r =>
      insert_item r.1 102 "msg102")).toOption.map
        (fun r => (r.1.items.map QItem.id, r.1.current_queue_item)) =
      some ([1, 2], some 1) := by decide

/-! ## Pipeline engine: branches, tasks, history, notifier, `process` -/

/-- The fields of `CfbotBranch` (`models.py`) that the engine and notifier
read or write. -/
structure Branch where
  patch_id : Nat
  branch_id : Nat
  branch_name : String
  status : String
  needs_rebase_since : Option Nat
  failing_since : Option Nat
  commit_id : Option String
  base_commit_sha : Option String
  patch_count : Option Nat
deriving DecidableEq, Repr

/-- A row of `CfbotTask` (`models.py`). -/
structure CfbotTask where
  task_id : String
  task_name : String
  patch_id : Nat
  branch_id : Nat
  position : Nat
  status : String
deriving DecidableEq, Repr

/-- A row of `CfbotTaskCommand` (`models.py`); `task_id` is the owning
task's external id. -/
structure TaskCommand where
  task_id : String
  name : String
  status : String
  type : String
deriving DecidableEq, Repr

/-- `CfbotTask.is_done`: the task has reached a terminal status. -/
def taskIsDone (t : CfbotTask) : Bool :=
  t.status = "FAILED" ∨ t.status = "COMPLETED" ∨ t.status = "ABORTED" ∨ t.status = "ERRORED"

/-- `CfbotTask.is_failure`: the terminal status is a failure. -/
def taskIsFailure (t : CfbotTask) : Bool :=
  t.status = "ABORTED" ∨ t.status = "ERRORED" ∨ t.status = "FAILED"

/-- A row of `CfbotBranchHistory` (`models.py`), restricted to the fields
this development reasons about. -/
structure HistoryRow where
  patch_id : Nat
  branch_id : Nat
  status : String
  needs_rebase_since : Option Nat
  failing_since : Option Nat
  base_commit_sha : Option String
  task_count : Nat
deriving DecidableEq, Repr

/-- The database state the engine manipulates: the branch being processed,
the global task and command tables, the (at most one) queue row, and the
append-only branch history. -/
structure EngineState where
  branch : Branch
  tasks : List CfbotTask
  commands : List TaskCommand
  queue : Option CfbotQueue
  history : List HistoryRow
deriving DecidableEq, Repr

/-- `CfbotBranchHistory.add_branch_to_history` (`models.py` lines 890-933):
snapshot the branch plus a count of its current tasks. -/
def add_branch_to_history (b : Branch) (tasks : List CfbotTask) : HistoryRow :=
  { patch_id := b.patch_id, branch_id := b.branch_id, status := b.status,
    needs_rebase_since := b.needs_rebase_since, failing_since := b.failing_since,
    base_commit_sha := b.base_commit_sha,
    task_count := (tasks.filter (fun t => t.branch_id = b.branch_id)).length }

/-- `Notifier.update_queue_ignore_date`: stamp `ignore_date` on the first
queue item carrying the branch's patch id, when the queue and item exist. -/
def update_queue_ignore_date (now : Nat) (st : EngineState) : EngineState :=
  match st.queue with
  | none => st
  | some q =>
    match q.items.find? (fun it => it.patch_id = st.branch.patch_id) with
    | none => st
    | some qi => { st with queue := some (updRow q qi.id (fun it => { it with ignore_date := some now })) }

/-- `Notifier.update_queue_latest_base_commit_sha`: copy the branch's base
commit into the first queue item carrying the branch's patch id. -/
def update_queue_latest_base_commit_sha (st : EngineState) : EngineState :=
  match st.queue with
  | none => st
  | some q =>
    match q.items.find? (fun it => it.patch_id = st.branch.patch_id) with
    | none => st
    | some qi =>
      { st with queue := some (updRow q qi.id
          (fun it => { it with last_base_commit_sha := st.branch.base_commit_sha })) }

/-- `Notifier.notify_branch_update` (`branchmanager_template.py` lines
661-675): update rebase/failing stamps and the source queue item, then
append one history row. -/
def notify_branch_update (now : Nat) (st : EngineState) : EngineState :=
  let b := st.branch
  let st1 : EngineState :=
    if b.status = "compiling-aborted" ∨ b.status = "compiling-failed" then
      update_queue_ignore_date now
        { st with branch := { b with needs_rebase_since := some now, failing_since := some now } }
    else if b.status = "testing-aborted" ∨ b.status = "testing-failed" then
      update_queue_ignore_date now
        { st with branch := { b with needs_rebase_since := none, failing_since := some now } }
    else st
  let st2 : EngineState :=
    if st1.branch.status = "compiled" ∨ st1.branch.status = "compiling-failed" then
      update_queue_latest_base_commit_sha st1
    else st1
  { st2 with history := st2.history ++ [add_branch_to_history st2.branch st2.tasks] }

/-- `Notifier.notify_branch_tested`: a hook with no core side effects. -/
def notify_branch_tested (st : EngineState) : EngineState := st

/-- The branch/task/command slice of the state a stage driver may touch. -/
structure StageData where
  branch : Branch
  tasks : List CfbotTask
  commands : List TaskCommand

/-- The contract of a stage driver (`begin` / `is_done` / `did_fail` /
`get_delay`).  Drivers read and write the branch, its tasks and their
commands; they cannot touch the queue or the history. -/
structure StageDriver where
  begin : StageData → Bool × StageData
  is_done : StageData → Bool × StageData
  did_fail : StageData → Bool × StageData
  get_delay : StageData → Option Nat

/-- `BranchManager.clear_tasks`: delete this branch's tasks (commands
cascade with their task). -/
def clear_tasks (st : EngineState) : EngineState :=
  let doomed := (st.tasks.filter (fun t => t.branch_id = st.branch.branch_id)).map
    (fun t => t.task_id)
  { st with
    tasks := st.tasks.filter (fun t => t.branch_id ≠ st.branch.branch_id),
    commands := st.commands.filter (fun c => ¬ doomed.contains c.task_id) }

/-- Lift a stage-driver call into the engine state. -/
def runStage (f : StageData → Bool × StageData) (st : EngineState) : Bool × EngineState :=
  let (r, sd) := f ⟨st.branch, st.tasks, st.commands⟩
  (r, { st with branch := sd.branch, tasks := sd.tasks, commands := sd.commands })

/-- The terminal branch statuses of `BranchManager.process`. -/
def terminalStatuses : List String :=
  ["finished", "applying-aborted", "applying-failed", "compiling-aborted",
   "compiling-failed", "testing-aborted", "testing-failed"]

/-- The branch statuses `BranchManager.process` accepts. -/
def knownStatuses : List String :=
  ["new", "applying", "applied", "compiling", "compiled", "testing", "tested"] ++
    terminalStatuses

/-- One step of a begin-style stage (`new` / `applied` / `compiled`). -/
def beginStep (drv : StageDriver) (okStatus abortStatus : String)
    (st : EngineState) (delay : Option Nat) : EngineState × Option Nat :=
  let (ok_, st') := runStage drv.begin st
  if ok_ then ({ st' with branch := { st'.branch with status := okStatus } }, delay)
  else ({ st' with branch := { st'.branch with status := abortStatus } }, none)

/-- One step of a polling stage (`applying` / `compiling` / `testing`). -/
def pollStep (drv : StageDriver) (okStatus failStatus : String)
    (st : EngineState) (delay : Option Nat) : EngineState × Option Nat :=
  let (d, st1) := runStage drv.is_done st
  if d then
    let (f, st2) := runStage drv.did_fail st1
    if f then ({ st2 with branch := { st2.branch with status := failStatus } }, none)
    else ({ st2 with branch := { st2.branch with status := okStatus } }, delay)
  else (st1, drv.get_delay ⟨st1.branch, st1.tasks, st1.commands⟩)

/-- `BranchManager.process` (`branchmanager_template.py` lines 33-135): one
engine tick.  Returns the updated state and the delay hint; a branch with
an unknown status raises `ValueError`. -/
def process (applier compiler tester : StageDriver) (now : Nat)
    (st : EngineState) : Except String (EngineState × Option Nat) :=
  let s := st.branch.status
  let stepped : Except String (EngineState × Option Nat) :=
    if s = "new" then
      -- intentional non-clearing of tasks: begin must abort if tasks exist
      .ok (beginStep applier "applying" "applying-aborted" st (some 0))
    else if s = "applying" then
      .ok (pollStep applier "applied" "applying-failed" st (some 0))
    else if s = "applied" then
      .ok (beginStep compiler "compiling" "compiling-aborted" (clear_tasks st) (some 0))
    else if s = "compiling" then
      .ok (pollStep compiler "compiled" "compiling-failed" st (some 0))
    else if s = "compiled" then
      .ok (beginStep tester "testing" "testing-aborted" (clear_tasks st) (some 0))
    else if s = "testing" then
      .ok (pollStep tester "tested" "testing-failed" st (some 0))
    else if s = "tested" then
      let st1 := clear_tasks st
      let st2 := { st1 with branch := { st1.branch with status := "notifying" } }
      let st3 := notify_branch_update now st2
      let st4 := notify_branch_tested st3
      .ok ({ st4 with branch := { st4.branch with status := "finished" } }, none)
    else if s ∈ terminalStatuses then
      -- no-op: caller did not listen the first time, but this is not enforced
      .ok (st, none)
    else
      .error ("Unknown status: " ++ s)
  match stepped with
  | .error e => .error e
  | .ok (st', delay) => .ok (notify_branch_update now st', delay)

/-! ## Patch applier stage driver (template `begin` plus local environment) -/

/-- One attachment of the patch set, as consumed by the download loop. -/
structure Attachment where
  filename : String
  ispatch : Bool
  attachmentid : Nat
deriving DecidableEq, Repr

/-- The filesystem environment of `LocalPatchApplier`, together with the
patch set and the outcome of each file download. -/
structure ApplyEnv where
  base_dir_exists : Bool
  template_dir_exists : Bool
  template_dir_nonempty : Bool
  template_git_exists : Bool
  apply_script_exists : Bool
  attachments : List Attachment
  download_fail_names : List String
deriving DecidableEq, Repr

/-- `LocalPatchApplier.initialize_directories` (`branchmanager_local.py`
lines 76-152): raises `FileNotFoundError` / `ValueError` when the base
directory, template directory or apply script is missing or unusable. -/
def init_directories (env : ApplyEnv) : Except String Unit :=
  if ¬ env.base_dir_exists then .error "FileNotFoundError: base directory does not exist"
  else if ¬ env.template_dir_exists then .error "FileNotFoundError: template directory does not exist"
  else if ¬ env.template_dir_nonempty then .error "ValueError: template directory is empty"
  else if ¬ env.template_git_exists then .error "FileNotFoundError: template directory has no .git"
  else if ¬ env.apply_script_exists then .error "FileNotFoundError: apply script does not exist"
  else .ok ()

/-- The body of `run_download_task` inside `PatchApplierTemplate.begin`
(`branchmanager_template.py` lines 167-237).  Crucially,
`initialize_directories` is invoked before the `try` block: an exception it
raises escapes the thread, leaving the Download task EXECUTING and no
commands created. -/
def run_download_task (env : ApplyEnv) (dt : CfbotTask) (sd : StageData) : StageData :=
  match init_directories env with
  | .error _ => sd
  | .ok _ =>
    let step := fun (acc : List TaskCommand × Nat × Nat) (att : Attachment) =>
      let (cs, patch_count, fail_count) := acc
      if att.ispatch ∧ fail_count = 0 then
        let good := ¬ env.download_fail_names.contains att.filename
        (cs ++ [{ task_id := dt.task_id, name := att.filename,
                  status := if good then "COMPLETED" else "FAILED",
                  type := "Patchset File" }],
         patch_count + 1, if good then fail_count else fail_count + 1)
      else
        (cs ++ [{ task_id := dt.task_id, name := att.filename,
                  status := "IGNORED", type := "Other File" }],
         patch_count, fail_count)
    let (newCmds, _, fail_count) := env.attachments.foldl step ([], 0, 0)
    let sd1 : StageData := { sd with commands := sd.commands ++ newCmds }
    if fail_count = 0 then
      let at_ : CfbotTask :=
        { task_id := "Apply-" ++ toString sd.branch.branch_id, task_name := "Apply",
          patch_id := sd.branch.patch_id, branch_id := sd.branch.branch_id,
          position := 2, status := "CREATED" }
      let patchCmds := (sd1.commands.filter
          (fun c => c.task_id = dt.task_id ∧ c.type = "Patchset File")).map
        (fun c => c.name)
      let sorted := patchCmds.insertionSort (fun a b => a ≤ b)
      let applyCmds := sorted.map (fun n =>
        ({ task_id := at_.task_id, name := n, status := "CREATED",
           type := "Apply Patch" } : TaskCommand))
      { sd1 with
        tasks := (sd1.tasks ++ [at_]).map
          (fun t => if t.task_id = dt.task_id then { t with status := "COMPLETED" } else t),
        commands := sd1.commands ++ applyCmds }
    else
      { sd1 with
        tasks := sd1.tasks.map
          (fun t => if t.task_id = dt.task_id then { t with status := "FAILED" } else t) }

/-- `PatchApplierTemplate.begin` (`branchmanager_template.py` lines
145-240): refuse when tasks already exist, otherwise create the Download
task and spawn the download thread, returning true unconditionally. -/
def applier_begin (env : ApplyEnv) (sd : StageData) : Bool × StageData :=
  if (sd.tasks.filter (fun t => t.branch_id = sd.branch.branch_id)) ≠ [] then
    (false, sd)
  else
    let dt : CfbotTask :=
      { task_id := "Download-" ++ toString sd.branch.branch_id, task_name := "Download",
        patch_id := sd.branch.patch_id, branch_id := sd.branch.branch_id,
        position := 1, status := "EXECUTING" }
    let sd1 : StageData := { sd with tasks := sd.tasks ++ [dt] }
    (true, run_download_task env dt sd1)

/-! ## Engine lemmas: frame facts about stage calls and the notifier -/

theorem runStage_history (f : StageData → Bool × StageData) (st : EngineState) :
    (runStage f st).2.history = st.history := by
  unfold runStage
  rcases h : f ⟨st.branch, st.tasks, st.commands⟩ with ⟨r, sd⟩
  simp [h]

theorem runStage_queue (f : StageData → Bool × StageData) (st : EngineState) :
    (runStage f st).2.queue = st.queue := by
  unfold runStage
  rcases h : f ⟨st.branch, st.tasks, st.commands⟩ with ⟨r, sd⟩
  simp [h]

theorem beginStep_history (drv : StageDriver) (a b : String) (st : EngineState)
    (d : Option Nat) : (beginStep drv a b st d).1.history = st.history := by
  unfold beginStep
  rcases h : runStage drv.begin st with ⟨ok_, st1⟩
  have h1 : st1.history = st.history := by
    have := runStage_history drv.begin st
    rw [h] at this; exact this
  simp [h]
  split <;> simp [h1]

theorem pollStep_history (drv : StageDriver) (a b : String) (st : EngineState)
    (d : Option Nat) : (pollStep drv a b st d).1.history = st.history := by
  unfold pollStep
  rcases h : runStage drv.is_done st with ⟨dn, st1⟩
  have h1 : st1.history = st.history := by
    have := runStage_history drv.is_done st
    rw [h] at this; exact this
  rcases h2 : runStage drv.did_fail st1 with ⟨f, st2⟩
  have h3 : st2.history = st1.history := by
    have := runStage_history drv.did_fail st1
    rw [h2] at this; exact this
  simp [h, h2]
  split
  · split <;> simp [h1, h3]
  · simp [h1]

theorem clear_tasks_history (st : EngineState) :
    (clear_tasks st).history = st.history := rfl

theorem uqid_branch (now : Nat) (st : EngineState) :
    (update_queue_ignore_date now st).branch = st.branch := by
  unfold update_queue_ignore_date
  repeat' split
  all_goals rfl

theorem uqid_history (now : Nat) (st : EngineState) :
    (update_queue_ignore_date now st).history = st.history := by
  unfold update_queue_ignore_date
  repeat' split
  all_goals rfl

theorem uqid_tasks (now : Nat) (st : EngineState) :
    (update_queue_ignore_date now st).tasks = st.tasks := by
  unfold update_queue_ignore_date
  repeat' split
  all_goals rfl

theorem uqlb_branch (st : EngineState) :
    (update_queue_latest_base_commit_sha st).branch = st.branch := by
  unfold update_queue_latest_base_commit_sha
  repeat' split
  all_goals rfl

theorem uqlb_history (st : EngineState) :
    (update_queue_latest_base_commit_sha st).history = st.history := by
  unfold update_queue_latest_base_commit_sha
  repeat' split
  all_goals rfl

theorem uqlb_tasks (st : EngineState) :
    (update_queue_latest_base_commit_sha st).tasks = st.tasks := by
  unfold update_queue_latest_base_commit_sha
  repeat' split
  all_goals rfl

theorem notify_branch_status (now : Nat) (st : EngineState) :
    (notify_branch_update now st).branch.status = st.branch.status := by
  simp only [notify_branch_update]
  split_ifs <;>
    simp [uqid_branch, uqlb_branch]

theorem notify_history_len (now : Nat) (st : EngineState) :
    (notify_branch_update now st).history.length = st.history.length + 1 := by
  simp only [notify_branch_update]
  split_ifs <;>
    simp [uqid_history, uqlb_history, uqid_branch]

/-! ## Concrete fixtures used by witnesses and counterexamples -/

/-- A stage driver that succeeds immediately and changes nothing. -/
def trivialDriver : StageDriver :=
  { begin := fun sd => (true, sd), is_done := fun sd => (true, sd),
    did_fail := fun sd => (false, sd), get_delay := fun _ => none }

/-- A freshly created branch record for patch 5. -/
def branchNew : Branch :=
  { patch_id := 5, branch_id := 1, branch_name := "cf/5", status := "new",
    needs_rebase_since := none, failing_since := none, commit_id := none,
    base_commit_sha := none, patch_count := none }

/-- Engine state: fresh branch, no tasks, no queue row, empty history. -/
def stNew : EngineState :=
  { branch := branchNew, tasks := [], commands := [], queue := none, history := [] }

/-- Engine state whose branch has already finished. -/
def stFinished : EngineState :=
  { stNew with branch := { branchNew with status := "finished" } }

/-- Engine state whose branch has status `tested`. -/
def stTested : EngineState :=
  { stNew with branch := { branchNew with status := "tested" } }

/-- C1 counterexample: a `process` call on a branch in status `tested`
appends two BranchHistory rows (one snapshotting `notifying`, one
`finished`), not exactly one as claimed: `notify_branch_update` runs both
inside the `tested` arm and once more at the end of `process`. -/
theorem claim_C1_counterexample :
    (process trivialDriver trivialDriver trivialDriver 7 stTested).map
        (fun r => r.1.history.length) = .ok 2 ∧ (2 : Nat) ≠ 1 :=
  ⟨rfl, by decide⟩

/-- C1 (amended): every `process` call on a branch with a known status
appends exactly one BranchHistory row, except the call that takes `tested`
to `finished`, which appends exactly two. -/
theorem claim_C1_amended (A C T : StageDriver) (now : Nat) (st : EngineState)
    (hknown : st.branch.status ∈ knownStatuses) :
    (st.branch.status ≠ "tested" →
      (process A C T now st).map (fun r => r.1.history.length) =
        .ok (st.history.length + 1)) ∧
    (st.branch.status = "tested" →
      (process A C T now st).map (fun r => r.1.history.length) =
        .ok (st.history.length + 2)) := by
  have hs : st.branch.status = "new" ∨ st.branch.status = "applying" ∨
      st.branch.status = "applied" ∨ st.branch.status = "compiling" ∨
      st.branch.status = "compiled" ∨ st.branch.status = "testing" ∨
      st.branch.status = "tested" ∨ st.branch.status = "finished" ∨
      st.branch.status = "applying-aborted" ∨ st.branch.status = "applying-failed" ∨
      st.branch.status = "compiling-aborted" ∨ st.branch.status = "compiling-failed" ∨
      st.branch.status = "testing-aborted" ∨ st.branch.status = "testing-failed" := by
    simpa [knownStatuses, terminalStatuses] using hknown
  constructor
  · intro hne
    rcases hs with h|h|h|h|h|h|h|h|h|h|h|h|h|h
    all_goals first
      | exact absurd h hne
      | simp [process, h, terminalStatuses, Except.map, notify_history_len,
          beginStep_history, pollStep_history, clear_tasks_history,
          notify_branch_tested]
  · intro h
    simp [process, h, Except.map, notify_history_len, clear_tasks_history,
      notify_branch_tested]

/-- C1 witness: on a fresh branch in status `new`, one call appends
exactly one history row. -/
theorem claim_C1_witness :
    (process trivialDriver trivialDriver trivialDriver 3 stNew).map
        (fun r => r.1.history.length) = .ok (stNew.history.length + 1) :=
  (claim_C1_amended trivialDriver trivialDriver trivialDriver 3 stNew (by decide)).1
    (by decide)

/-- C9: on a branch whose status is terminal, `process` leaves the status
unchanged and returns a null delay. -/
theorem claim_C9 (A C T : StageDriver) (now : Nat) (st : EngineState)
    (hterm : st.branch.status ∈ terminalStatuses) :
    (process A C T now st).map (fun r => (r.1.branch.status, r.2)) =
      .ok (st.branch.status, none) := by
  have hs : st.branch.status = "finished" ∨
      st.branch.status = "applying-aborted" ∨ st.branch.status = "applying-failed" ∨
      st.branch.status = "compiling-aborted" ∨ st.branch.status = "compiling-failed" ∨
      st.branch.status = "testing-aborted" ∨ st.branch.status = "testing-failed" := by
    simpa [terminalStatuses] using hterm
  rcases hs with h|h|h|h|h|h|h <;>
    simp [process, h, terminalStatuses, Except.map, notify_branch_status]

/-- C9 witness: a finished branch stays finished with a null delay. -/
theorem claim_C9_witness :
    (process trivialDriver trivialDriver trivialDriver 3 stFinished).map
        (fun r => (r.1.branch.status, r.2)) =
      .ok (stFinished.branch.status, none) :=
  claim_C9 trivialDriver trivialDriver trivialDriver 3 stFinished (by decide)

/-- An apply environment whose base directory is missing. -/
def envNoBase : ApplyEnv :=
  { base_dir_exists := false, template_dir_exists := true,
    template_dir_nonempty := true, template_git_exists := true,
    apply_script_exists := true,
    attachments := [{ filename := "0001-a.patch", ispatch := true, attachmentid := 11 }],
    download_fail_names := [] }

/-- C3: evaluating the code at the claim's failing input.  With the base
directory missing and a branch in status `new` with no tasks, the
applier's `begin` still returns true (the environment check runs in the
download thread, outside its `try` block), so `process` sets status
`applying` with delay 0, and a Download task has been created and is left
EXECUTING — contradicting the claimed `applying-aborted` with delay null
and no Download task. -/
theorem claim_C3_behavior (isd dfd : StageData → Bool × StageData)
    (gd : StageData → Option Nat) (C T : StageDriver) :
    (process { begin := applier_begin envNoBase, is_done := isd, did_fail := dfd,
               get_delay := gd } C T 4 stNew).map
        (fun r => (r.1.branch.status, r.2,
          r.1.tasks.map (fun t => (t.task_name, t.status)), r.1.commands)) =
      .ok ("applying", some 0, [("Download", "EXECUTING")], []) := rfl

/-! ## List helper lemmas for keyed row updates -/

theorem find?_map_upd (l : List QItem) (P : QItem → Bool) (f : QItem → QItem)
    (tid : Nat) (x : QItem) (hfind : l.find? P = some x)
    (hstable : ∀ y, P (f y) = P y) :
    (l.map (fun it => if it.id = tid then f it else it)).find? P =
      some (if x.id = tid then f x else x) := by
  induction l with
  | nil => simp at hfind
  | cons a t ih =>
    by_cases hA : P a = true
    · rw [List.find?_cons_of_pos _ hA] at hfind
      injection hfind with hx
      subst hx
      have hg : P (if a.id = tid then f a else a) = true := by
        split <;> simp [hstable, hA]
      simp only [List.map_cons]
      rw [List.find?_cons_of_pos _ hg]
    · have hA' : P a = false := by simpa using hA
      rw [List.find?_cons_of_neg _ (by simp [hA'])] at hfind
      have hg : ¬ P (if a.id = tid then f a else a) = true := by
        split <;> simp [hstable, hA']
      simp only [List.map_cons]
      rw [List.find?_cons_of_neg _ hg]
      exact ih hfind

theorem find?_updRow (q : CfbotQueue) (tid : Nat) (f : QItem → QItem)
    (P : QItem → Bool) (x : QItem) (hfind : q.items.find? P = some x)
    (hstable : ∀ y, P (f y) = P y) :
    (updRow q tid f).items.find? P = some (if x.id = tid then f x else x) :=
  find?_map_upd q.items P f tid x hfind hstable

theorem uqid_spec (now : Nat) (st : EngineState) (q : CfbotQueue) (qi : QItem)
    (hq : st.queue = some q)
    (hfind : q.items.find? (fun it => it.patch_id = st.branch.patch_id) = some qi) :
    update_queue_ignore_date now st =
      { st with queue := some (updRow q qi.id
          (fun it => { it with ignore_date := some now })) } := by
  simp [update_queue_ignore_date, hq, hfind]

theorem uqlb_spec (st : EngineState) (q : CfbotQueue) (qi : QItem)
    (hq : st.queue = some q)
    (hfind : q.items.find? (fun it => it.patch_id = st.branch.patch_id) = some qi) :
    update_queue_latest_base_commit_sha st =
      { st with queue := some (updRow q qi.id
          (fun it => { it with last_base_commit_sha := st.branch.base_commit_sha })) } := by
  simp [update_queue_latest_base_commit_sha, hq, hfind]

/-- C4: `notify_branch_update` side effects.  Given the queue row and the
first queue item carrying the branch's patch id: a compiling abort/failure
stamps needs-rebase-since and failing-since and ignores the queue item; a
testing abort/failure clears needs-rebase-since, stamps failing-since and
ignores the item; `compiled` and `compiling-failed` copy the branch's base
commit into the item's last-base-commit. -/
theorem claim_C4 (now : Nat) (st : EngineState) (q : CfbotQueue) (qi : QItem)
    (hq : st.queue = some q)
    (hfind : q.items.find? (fun it => it.patch_id = st.branch.patch_id) = some qi) :
    (st.branch.status = "compiling-aborted" →
      (notify_branch_update now st).branch =
        { st.branch with needs_rebase_since := some now, failing_since := some now } ∧
      ∃ q', (notify_branch_update now st).queue = some q' ∧
        q'.items.find? (fun it => it.patch_id = st.branch.patch_id) =
          some { qi with ignore_date := some now }) ∧
    (st.branch.status = "compiling-failed" →
      (notify_branch_update now st).branch =
        { st.branch with needs_rebase_since := some now, failing_since := some now } ∧
      ∃ q', (notify_branch_update now st).queue = some q' ∧
        q'.items.find? (fun it => it.patch_id = st.branch.patch_id) =
          some { qi with
                 ignore_date := some now
                 last_base_commit_sha := st.branch.base_commit_sha }) ∧
    ((st.branch.status = "testing-aborted" ∨ st.branch.status = "testing-failed") →
      (notify_branch_update now st).branch =
        { st.branch with needs_rebase_since := none, failing_since := some now } ∧
      ∃ q', (notify_branch_update now st).queue = some q' ∧
        q'.items.find? (fun it => it.patch_id = st.branch.patch_id) =
          some { qi with ignore_date := some now }) ∧
    (st.branch.status = "compiled" →
      (notify_branch_update now st).branch = st.branch ∧
      ∃ q', (notify_branch_update now st).queue = some q' ∧
        q'.items.find? (fun it => it.patch_id = st.branch.patch_id) =
          some { qi with last_base_commit_sha := st.branch.base_commit_sha }) := by
  refine ⟨?_, ?_, ?_, ?_⟩
  · intro h
    simp only [notify_branch_update, h]
    simp only [update_queue_ignore_date, update_queue_latest_base_commit_sha]
    simp [hq, hfind, h]
    try refine ⟨_, rfl, ?_⟩
    simpa using find?_updRow q qi.id
      (fun it => { it with ignore_date := some now })
      (fun it => it.patch_id = st.branch.patch_id) qi hfind (fun y => rfl)
  · intro h
    have hf1 : (updRow q qi.id (fun it => { it with ignore_date := some now })).items.find?
        (fun it => it.patch_id = st.branch.patch_id) =
        some { qi with ignore_date := some now } := by
      simpa using find?_updRow q qi.id (fun it => { it with ignore_date := some now })
        (fun it => it.patch_id = st.branch.patch_id) qi hfind (fun y => rfl)
    simp only [notify_branch_update, h]
    simp only [update_queue_ignore_date, update_queue_latest_base_commit_sha]
    simp [hq, hfind, hf1, h]
    try refine ⟨_, rfl, ?_⟩
    simpa using find?_updRow
      (updRow q qi.id (fun it => { it with ignore_date := some now })) qi.id
      (fun it => { it with last_base_commit_sha := st.branch.base_commit_sha })
      (fun it => it.patch_id = st.branch.patch_id)
      { qi with ignore_date := some now } hf1 (fun y => rfl)
  · intro h
    rcases h with h|h
    all_goals
      simp only [notify_branch_update, h]
      simp only [update_queue_ignore_date, update_queue_latest_base_commit_sha]
      simp [hq, hfind, h]
      try refine ⟨_, rfl, ?_⟩
      simpa using find?_updRow q qi.id
        (fun it => { it with ignore_date := some now })
        (fun it => it.patch_id = st.branch.patch_id) qi hfind (fun y => rfl)
  · intro h
    simp only [notify_branch_update, h]
    simp only [update_queue_ignore_date, update_queue_latest_base_commit_sha]
    simp [hq, hfind, h]
    try refine ⟨_, rfl, ?_⟩
    simpa using find?_updRow q qi.id
      (fun it => { it with last_base_commit_sha := st.branch.base_commit_sha })
      (fun it => it.patch_id = st.branch.patch_id) qi hfind (fun y => rfl)

/-- A queue item for patch 5, alone in its queue. -/
def qiW : QItem :=
  { id := 1, patch_id := 5, message_id := "m", ignore_date := none,
    processed_date := none, ll_prev := none, ll_next := none,
    last_base_commit_sha := none }

/-- A one-item queue holding `qiW`, cursor on it. -/
def qW : CfbotQueue := { items := [qiW], current_queue_item := some 1, next_id := 2 }

/-- Engine state with a compiling-failed branch for patch 5 and queue `qW`. -/
def stCompFailed : EngineState :=
  { branch := { branchNew with status := "compiling-failed", base_commit_sha := some "abc" },
    tasks := [], commands := [], queue := some qW, history := [] }

/-- C4 witness: a compiling-failed branch stamps both branch dates and the
queue item's ignored-at, and copies the base commit into the item. -/
theorem claim_C4_witness :
    (notify_branch_update 9 stCompFailed).branch =
      { stCompFailed.branch with needs_rebase_since := some 9, failing_since := some 9 } ∧
    ∃ q', (notify_branch_update 9 stCompFailed).queue = some q' ∧
      q'.items.find? (fun it => it.patch_id = stCompFailed.branch.patch_id) =
        some { qiW with
               ignore_date := some 9
               last_base_commit_sha := stCompFailed.branch.base_commit_sha } :=
  (claim_C4 9 stCompFailed qW qiW rfl rfl).2.1 rfl

/-! ## The linked-list invariant: chains and well-formed queues -/

/-- The id of the first item of a list, if any. -/
def headId : List QItem → Option Nat
  | [] => none
  | x :: _ => some x.id

/-- `Chain p l` says `l` lists the queue items in linked-list order:
the first item's `ll_prev` is `p`, consecutive items point at each other,
and the last item's `ll_next` is null. -/
def Chain : Option Nat → List QItem → Prop
  | _, [] => True
  | p, x :: xs => x.ll_prev = p ∧ x.ll_next = headId xs ∧ Chain (some x.id) xs

/-- A queue is well formed when its rows are a permutation of some chain,
row ids are positive, distinct and below the id counter, and the cursor is
null exactly on the empty queue and otherwise names an existing row. -/
def QueueWF (q : CfbotQueue) : Prop :=
  ∃ l : List QItem,
    q.items.Perm l ∧ Chain none l ∧
    (q.items.map QItem.id).Nodup ∧
    (∀ it ∈ q.items, 1 ≤ it.id ∧ it.id < q.next_id) ∧
    (match q.current_queue_item with
     | none => l = []
     | some c => ∃ it ∈ l, it.id = c)

/-- Update-by-key as a function on rows. -/
def updFn (tid : Nat) (f : QItem → QItem) : QItem → QItem :=
  fun it => if it.id = tid then f it else it

theorem updRow_eq_map (q : CfbotQueue) (tid : Nat) (f : QItem → QItem) :
    (updRow q tid f).items = q.items.map (updFn tid f) := rfl

/-- Rewrite the last item's `ll_next`. -/
def setNextLast (v : Option Nat) : List QItem → List QItem
  | [] => []
  | [x] => [{ x with ll_next := v }]
  | x :: y :: xs => x :: setNextLast v (y :: xs)

/-- Rewrite the first item's `ll_prev`. -/
def setPrevHead (v : Option Nat) : List QItem → List QItem
  | [] => []
  | x :: xs => { x with ll_prev := v } :: xs

theorem setNextLast_map_id (v : Option Nat) (l : List QItem) :
    (setNextLast v l).map QItem.id = l.map QItem.id := by
  induction l with
  | nil => rfl
  | cons x xs ih =>
    cases xs with
    | nil => rfl
    | cons y t => simpa [setNextLast] using ih

theorem setPrevHead_map_id (v : Option Nat) (l : List QItem) :
    (setPrevHead v l).map QItem.id = l.map QItem.id := by
  cases l <;> rfl

theorem headId_setNextLast (v : Option Nat) (l : List QItem) :
    headId (setNextLast v l) = headId l := by
  cases l with
  | nil => rfl
  | cons x xs => cases xs <;> rfl

theorem headId_setPrevHead (v : Option Nat) (l : List QItem) :
    headId (setPrevHead v l) = headId l := by
  cases l <;> rfl

theorem headId_append (l m : List QItem) (h : l ≠ []) :
    headId (l ++ m) = headId l := by
  cases l with
  | nil => cases h rfl
  | cons x xs => rfl

theorem find?_eq_head?_filter (p : QItem → Bool) (l : List QItem) :
    l.find? p = (l.filter p).head? := by
  induction l with
  | nil => rfl
  | cons a t ih =>
    by_cases h : p a = true
    · rw [List.find?_cons_of_pos _ h, List.filter_cons_of_pos h]
      rfl
    · rw [List.find?_cons_of_neg _ (by simpa using h),
        List.filter_cons_of_neg (by simpa using h)]
      exact ih

theorem find?_of_perm_singleton {l l' : List QItem} (p : QItem → Bool) (a : QItem)
    (hperm : l.Perm l') (hf : l'.filter p = [a]) : l.find? p = some a := by
  rw [find?_eq_head?_filter]
  have h2 : l.filter p = [a] := List.perm_singleton.mp (by
    have := hperm.filter p
    rwa [hf] at this)
  rw [h2]; rfl

theorem filter_id_singleton {l : List QItem} {x : QItem} (hx : x ∈ l)
    (hnd : (l.map QItem.id).Nodup) :
    l.filter (fun it => it.id = x.id) = [x] := by
  induction l with
  | nil => cases hx
  | cons a t ih =>
    rw [List.map_cons, List.nodup_cons] at hnd
    rcases List.mem_cons.mp hx with rfl | hxt
    · rw [List.filter_cons_of_pos (by simp)]
      have hnil : t.filter (fun it => it.id = x.id) = [] := by
        apply List.filter_eq_nil_iff.mpr
        intro y hy
        simp only [decide_eq_true_eq]
        intro he
        exact hnd.1 (he ▸ List.mem_map_of_mem QItem.id hy)
      rw [hnil]
    · have hne : ¬ (a.id = x.id) := by
        intro he
        exact hnd.1 (he ▸ List.mem_map_of_mem QItem.id hxt)
      rw [List.filter_cons_of_neg (by simpa using hne)]
      exact ih hxt hnd.2

theorem find?_id_of_perm {q : CfbotQueue} {l : List QItem} {x : QItem}
    (hperm : q.items.Perm l) (hnd : (q.items.map QItem.id).Nodup)
    (hx : x ∈ l) : findItem q x.id = some x := by
  have hnd' : (l.map QItem.id).Nodup := by
    rwa [(hperm.map QItem.id).nodup_iff] at hnd
  exact find?_of_perm_singleton _ x hperm (filter_id_singleton hx hnd')

theorem map_updFn_of_not_mem (l : List QItem) (tid : Nat) (f : QItem → QItem)
    (h : tid ∉ l.map QItem.id) : l.map (updFn tid f) = l := by
  induction l with
  | nil => rfl
  | cons a t ih =>
    simp only [List.map_cons, List.mem_cons] at h ⊢
    push_neg at h
    rw [ih h.2]
    have : updFn tid f a = a := by
      unfold updFn
      rw [if_neg (by intro he; exact h.1 he.symm)]
    rw [this]

theorem chain_all_prev_some (l : List QItem) :
    ∀ a : Nat, Chain (some a) l → ∀ y ∈ l, y.ll_prev ≠ none := by
  induction l with
  | nil => intro a _ y hy; cases hy
  | cons x xs ih =>
    intro a h y hy
    obtain ⟨hp, _, hrest⟩ := h
    rcases List.mem_cons.mp hy with rfl | hyt
    · rw [hp]; simp
    · exact ih x.id hrest y hyt

theorem chain_filter_prev_none (x : QItem) (xs : List QItem)
    (h : Chain none (x :: xs)) :
    (x :: xs).filter (fun it => it.ll_prev = none) = [x] := by
  obtain ⟨hp, _, hrest⟩ := h
  rw [List.filter_cons_of_pos (by simp [hp])]
  have hnil : xs.filter (fun it => it.ll_prev = none) = [] := by
    apply List.filter_eq_nil_iff.mpr
    intro y hy
    simpa using chain_all_prev_some xs x.id hrest y hy
  rw [hnil]

theorem chain_filter_next_none (l : List QItem) (hne : l ≠ []) :
    ∀ p : Option Nat, Chain p l →
      l.filter (fun it => it.ll_next = none) = [l.getLast hne] := by
  induction l with
  | nil => cases hne rfl
  | cons x xs ih =>
    intro p h
    obtain ⟨_, hnx, hrest⟩ := h
    cases xs with
    | nil =>
      rw [List.filter_cons_of_pos (by simp [hnx, headId])]
      simp
    | cons y t =>
      rw [List.filter_cons_of_neg (by simp [hnx, headId])]
      rw [ih (by simp) (some x.id) hrest]
      simp [List.getLast]

/-- The link that the last element of `xs` passes to whatever follows. -/
def lastLink : Option Nat → List QItem → Option Nat
  | p, [] => p
  | _, x :: xs => lastLink (some x.id) xs

theorem chain_append_right (xs : List QItem) :
    ∀ (p : Option Nat) (ys : List QItem), Chain p (xs ++ ys) →
      Chain (lastLink p xs) ys := by
  induction xs with
  | nil => intro p ys h; exact h
  | cons a as ih =>
    intro p ys h
    obtain ⟨_, _, hrest⟩ := h
    exact ih (some a.id) ys hrest

theorem chain_split (p : Option Nat) (xs : List QItem) (x : QItem) (ys : List QItem)
    (h : Chain p (xs ++ x :: ys)) :
    x.ll_prev = lastLink p xs ∧ x.ll_next = headId ys ∧ Chain (some x.id) ys :=
  chain_append_right xs p (x :: ys) h

theorem lastLink_eq_getLast (xs : List QItem) (h : xs ≠ []) (p : Option Nat) :
    lastLink p xs = some (xs.getLast h).id := by
  induction xs generalizing p with
  | nil => cases h rfl
  | cons a as ih =>
    cases as with
    | nil => rfl
    | cons b bs => simpa [lastLink, List.getLast] using ih (by simp) (some a.id)

theorem chain_set_head_prev (v : Option Nat) (p : Option Nat) (x : QItem)
    (xs : List QItem) (h : Chain p (x :: xs)) :
    Chain v ({ x with ll_prev := v } :: xs) :=
  ⟨rfl, h.2.1, h.2.2⟩

theorem chain_remove (xs : List QItem) :
    ∀ (p : Option Nat) (y : QItem) (zs : List QItem),
      Chain p (xs ++ y :: zs) →
      Chain p (setNextLast y.ll_next xs ++ setPrevHead y.ll_prev zs) := by
  induction xs with
  | nil =>
    intro p y zs h
    obtain ⟨hp, hnx, hrest⟩ := h
    cases zs with
    | nil => exact trivial
    | cons z t =>
      obtain ⟨hzp, hznx, hzrest⟩ := hrest
      exact ⟨hp ▸ rfl, hznx, hzrest⟩
  | cons a as ih =>
    intro p y zs h
    obtain ⟨hap, hanx, harest⟩ := h
    cases as with
    | nil =>
      obtain ⟨hyp, hynx, hyrest⟩ := harest
      show Chain p ({ a with ll_next := y.ll_next } :: setPrevHead y.ll_prev zs)
      cases zs with
      | nil =>
        refine ⟨hap, ?_, trivial⟩
        simpa [headId, setPrevHead] using hynx
      | cons z t =>
        refine ⟨hap, ?_, ?_⟩
        · simpa [headId, setPrevHead] using hynx
        · show Chain (some a.id) ({ z with ll_prev := y.ll_prev } :: t)
          rw [hyp]
          exact chain_set_head_prev (some a.id) (some y.id) z t hyrest
    | cons b bs =>
      have hrec := ih (some a.id) y zs harest
      show Chain p (a :: (setNextLast y.ll_next (b :: bs) ++ setPrevHead y.ll_prev zs))
      refine ⟨hap, ?_, hrec⟩
      rw [headId_append _ _ (by cases bs <;> simp [setNextLast]),
        headId_setNextLast]
      simpa [headId] using hanx

theorem chain_insert_after (xs : List QItem) :
    ∀ (p : Option Nat) (t : QItem) (zs : List QItem) (ni : QItem),
      Chain p (xs ++ t :: zs) → ni.ll_prev = some t.id → ni.ll_next = t.ll_next →
      Chain p (xs ++ { t with ll_next := some ni.id } :: ni ::
        setPrevHead (some ni.id) zs) := by
  induction xs with
  | nil =>
    intro p t zs ni h hprev hnext
    obtain ⟨htp, htnx, hrest⟩ := h
    refine ⟨htp, by simp [headId], hprev, ?_, ?_⟩
    · rw [hnext, htnx, headId_setPrevHead]
    · cases zs with
      | nil => exact trivial
      | cons z t' => exact chain_set_head_prev (some ni.id) (some t.id) z t' hrest
  | cons a as ih =>
    intro p t zs ni h hprev hnext
    obtain ⟨hap, hanx, harest⟩ := h
    refine ⟨hap, ?_, ih (some a.id) t zs ni harest hprev hnext⟩
    cases as with
    | nil => simpa [headId] using hanx
    | cons b bs => simpa [headId] using hanx

theorem find?_map_stable (l : List QItem) (f : QItem → QItem) (P : QItem → Bool)
    (hst : ∀ y, P (f y) = P y) : (l.map f).find? P = (l.find? P).map f := by
  induction l with
  | nil => rfl
  | cons a t ih =>
    by_cases h : P a = true
    · rw [List.map_cons, List.find?_cons_of_pos _ (by rw [hst]; exact h),
        List.find?_cons_of_pos _ h]
      rfl
    · rw [List.map_cons, List.find?_cons_of_neg _ (by rw [hst]; simpa using h),
        List.find?_cons_of_neg _ (by simpa using h)]
      exact ih

theorem map_id_updFn (l : List QItem) (tid : Nat) (f : QItem → QItem)
    (hf : ∀ y, (f y).id = y.id) :
    (l.map (updFn tid f)).map QItem.id = l.map QItem.id := by
  induction l with
  | nil => rfl
  | cons a t ih =>
    simp only [List.map_cons, ih, List.cons.injEq, and_true]
    unfold updFn
    split
    · exact hf a
    · rfl

theorem lastLink_indep (p p' : Option Nat) (x : QItem) (xs : List QItem) :
    lastLink p (x :: xs) = lastLink p' (x :: xs) := rfl

theorem lastLink_mem (l : List QItem) :
    ∀ (p : Option Nat) (t : Nat), lastLink p l = some t →
      t ∈ l.map QItem.id ∨ p = some t := by
  induction l with
  | nil => intro p t h; exact Or.inr h
  | cons a as ih =>
    intro p t h
    rcases ih (some a.id) t h with h1 | h1
    · exact Or.inl (List.mem_cons_of_mem _ h1)
    · left
      simp only [List.map_cons, List.mem_cons]
      left
      injection h1 with h1
      exact h1.symm

theorem map_updFn_setNextLast (v : Option Nat) (l : List QItem) :
    ∀ tid : Nat, (l.map QItem.id).Nodup → lastLink none l = some tid →
      l.map (updFn tid (fun it => { it with ll_next := v })) = setNextLast v l := by
  induction l with
  | nil => intro tid _ h; cases h
  | cons a as ih =>
    intro tid hnd hlast
    rw [List.map_cons, List.nodup_cons] at hnd
    cases as with
    | nil =>
      have : tid = a.id := by
        cases hlast; rfl
      subst this
      simp [updFn, setNextLast]
    | cons b bs =>
      have hlast' : lastLink none (b :: bs) = some tid := by
        rw [← hlast]; rfl
      have htid_mem : tid ∈ (b :: bs).map QItem.id := by
        rcases lastLink_mem (b :: bs) none tid hlast' with h | h
        · exact h
        · cases h
      have hane : ¬ (a.id = tid) := by
        intro he
        exact hnd.1 (he ▸ htid_mem)
      show _ :: _ = a :: setNextLast v (b :: bs)
      rw [← ih tid hnd.2 hlast']
      rw [List.map_cons]
      congr 1
      unfold updFn
      rw [if_neg hane]

theorem map_updFn_setPrevHead (v : Option Nat) (z : QItem) (t : List QItem)
    (hz : z.id ∉ t.map QItem.id) :
    (z :: t).map (updFn z.id (fun it => { it with ll_prev := v })) =
      setPrevHead v (z :: t) := by
  show _ :: _ = _ :: _
  congr 1
  · unfold updFn; rw [if_pos rfl]
  · exact map_updFn_of_not_mem t z.id _ hz

/-- The effect of `removePrevFix` on an arbitrary row. -/
def gPrev (I : QItem) : QItem → QItem :=
  fun it => if I.ll_prev = some it.id then { it with ll_next := I.ll_next } else it

/-- The effect of `removeNextFix` on an arbitrary row. -/
def gNext (I : QItem) : QItem → QItem :=
  fun it => if I.ll_next = some it.id then { it with ll_prev := I.ll_prev } else it

theorem gPrev_id (I y : QItem) : (gPrev I y).id = y.id := by
  unfold gPrev; split <;> rfl

theorem gNext_id (I y : QItem) : (gNext I y).id = y.id := by
  unfold gNext; split <;> rfl

theorem gPrev_prev (I y : QItem) : (gPrev I y).ll_prev = y.ll_prev := by
  unfold gPrev; split <;> rfl

theorem gPrev_eq_id_fun (I : QItem) (h : I.ll_prev = none) : gPrev I = id := by
  funext y; unfold gPrev; rw [h]; simp

theorem gNext_eq_id_fun (I : QItem) (h : I.ll_next = none) : gNext I = id := by
  funext y; unfold gNext; rw [h]; simp

theorem map_eq_self (l : List QItem) (f : QItem → QItem) (h : ∀ x ∈ l, f x = x) :
    l.map f = l := by
  induction l with
  | nil => rfl
  | cons a t ih => rw [List.map_cons, h a (by simp), ih (fun x hx => h x (by simp [hx]))]

theorem removePrevFix_items (q : CfbotQueue) (I : QItem)
    (h : ∀ p, I.ll_prev = some p → p ∈ q.items.map QItem.id) :
    (removePrevFix q I).items = q.items.map (gPrev I) := by
  unfold removePrevFix
  cases hp : I.ll_prev with
  | none =>
    rw [gPrev_eq_id_fun I hp, List.map_id]
  | some p =>
    obtain ⟨x, hx, hxid⟩ := List.mem_map.mp (h p hp)
    cases hfind : findItem q p with
    | none =>
      exfalso
      have := List.find?_eq_none.mp hfind x hx
      simp [hxid] at this
    | some w =>
      simp only [hp, hfind]
      rw [updRow_eq_map]
      have hfun : (updFn p fun it => { it with ll_next := I.ll_next }) = gPrev I := by
        funext y
        unfold updFn gPrev
        rw [hp]
        by_cases hy : y.id = p
        · rw [if_pos hy, if_pos (by rw [hy])]
        · rw [if_neg hy, if_neg (by intro he; exact hy (Option.some.inj he).symm)]
      rw [hfun]

theorem removeNextFix_items (q : CfbotQueue) (I : QItem)
    (h : ∀ n, I.ll_next = some n → n ∈ q.items.map QItem.id) :
    (removeNextFix q I).items = q.items.map (gNext I) := by
  unfold removeNextFix
  cases hp : I.ll_next with
  | none =>
    rw [gNext_eq_id_fun I hp, List.map_id]
  | some n =>
    obtain ⟨x, hx, hxid⟩ := List.mem_map.mp (h n hp)
    cases hfind : findItem q n with
    | none =>
      exfalso
      have := List.find?_eq_none.mp hfind x hx
      simp [hxid] at this
    | some w =>
      simp only [hp, hfind]
      rw [updRow_eq_map]
      have hfun : (updFn n fun it => { it with ll_prev := I.ll_prev }) = gNext I := by
        funext y
        unfold updFn gNext
        rw [hp]
        by_cases hy : y.id = n
        · rw [if_pos hy, if_pos (by rw [hy])]
        · rw [if_neg hy, if_neg (by intro he; exact hy (Option.some.inj he).symm)]
      rw [hfun]

theorem removePrevFix_cursor (q : CfbotQueue) (I : QItem) :
    (removePrevFix q I).current_queue_item = q.current_queue_item := by
  unfold removePrevFix
  repeat' split
  all_goals rfl

theorem removePrevFix_next_id (q : CfbotQueue) (I : QItem) :
    (removePrevFix q I).next_id = q.next_id := by
  unfold removePrevFix
  repeat' split
  all_goals rfl

theorem removeNextFix_cursor (q : CfbotQueue) (I : QItem) :
    (removeNextFix q I).current_queue_item = q.current_queue_item := by
  unfold removeNextFix
  repeat' split
  all_goals rfl

theorem removeNextFix_next_id (q : CfbotQueue) (I : QItem) :
    (removeNextFix q I).next_id = q.next_id := by
  unfold removeNextFix
  repeat' split
  all_goals rfl

theorem filter_ne_of_not_mem (l : List QItem) (iid : Nat)
    (h : iid ∉ l.map QItem.id) : l.filter (fun it => it.id ≠ iid) = l := by
  induction l with
  | nil => rfl
  | cons a t ih =>
    simp only [List.map_cons, List.mem_cons] at h
    push_neg at h
    rw [List.filter_cons_of_pos (by simpa using fun he => h.1 he.symm), ih h.2]

theorem headId_mem (l : List QItem) (n : Nat) (h : headId l = some n) :
    n ∈ l.map QItem.id := by
  cases l with
  | nil => cases h
  | cons x xs =>
    injection h with h
    simp [← h]

theorem lastLink_isSome (l : List QItem) (h : l ≠ []) (p : Option Nat) :
    ∃ t, lastLink p l = some t := by
  induction l generalizing p with
  | nil => cases h rfl
  | cons a as ih =>
    cases as with
    | nil => exact ⟨a.id, rfl⟩
    | cons b bs => exact ih (by simp) (some a.id)

theorem remove_stage2 (q : CfbotQueue) (I : QItem) (l₁ l₂ : List QItem)
    (hperm : q.items.Perm (l₁ ++ I :: l₂))
    (hch : Chain none (l₁ ++ I :: l₂))
    (hnd : (q.items.map QItem.id).Nodup) :
    (removeNextFix (removePrevFix q I) I).items =
      (q.items.map (gPrev I)).map (gNext I) ∧
    ((l₁ ++ I :: l₂).map (gPrev I)).map (gNext I) =
      setNextLast I.ll_next l₁ ++ I :: setPrevHead I.ll_prev l₂ := by
  have hndl : ((l₁ ++ I :: l₂).map QItem.id).Nodup :=
    ((hperm.map QItem.id).nodup_iff).mp hnd
  rw [List.map_append, List.map_cons] at hndl
  rcases List.nodup_append.mp hndl with ⟨hnd1, hndc, hdisj⟩
  have hI1 : I.id ∉ l₁.map QItem.id := fun hmem => hdisj hmem (List.mem_cons_self _ _)
  have hI2 : I.id ∉ l₂.map QItem.id := (List.nodup_cons.mp hndc).1
  have hnd2 : (l₂.map QItem.id).Nodup := (List.nodup_cons.mp hndc).2
  obtain ⟨hIp, hIn, hIrest⟩ := chain_split none l₁ I l₂ hch
  have memq : ∀ c : Nat, c ∈ (l₁ ++ I :: l₂).map QItem.id →
      c ∈ q.items.map QItem.id := fun c hc => ((hperm.map QItem.id).mem_iff).mpr hc
  have hguardP : ∀ p, I.ll_prev = some p → p ∈ q.items.map QItem.id := by
    intro p hp
    rw [hIp] at hp
    rcases lastLink_mem l₁ none p hp with hm | hm
    · exact memq p (by rw [List.map_append]; exact List.mem_append_left _ hm)
    · cases hm
  have hq1items := removePrevFix_items q I hguardP
  have hq1ids : (removePrevFix q I).items.map QItem.id = q.items.map QItem.id := by
    rw [hq1items, List.map_map,
      show QItem.id ∘ gPrev I = QItem.id from funext (gPrev_id I)]
  have hguardN : ∀ n, I.ll_next = some n →
      n ∈ (removePrevFix q I).items.map QItem.id := by
    intro n hn
    rw [hIn] at hn
    rw [hq1ids]
    exact memq n (by
      rw [List.map_append]
      exact List.mem_append_right _ (List.mem_cons_of_mem _ (headId_mem l₂ n hn)))
  have hq2items := removeNextFix_items (removePrevFix q I) I hguardN
  constructor
  · rw [hq2items, hq1items]
  · have hmapPrev : (l₁ ++ I :: l₂).map (gPrev I) =
        setNextLast I.ll_next l₁ ++ I :: l₂ := by
      rw [List.map_append, List.map_cons]
      have e2 : gPrev I I = I := by
        unfold gPrev
        rw [if_neg]
        intro he
        rw [hIp] at he
        rcases lastLink_mem l₁ none I.id he with hm | hm
        · exact hI1 hm
        · cases hm
      have e3 : l₂.map (gPrev I) = l₂ := by
        apply map_eq_self
        intro x hx
        unfold gPrev
        rw [if_neg]
        intro he
        rw [hIp] at he
        rcases lastLink_mem l₁ none x.id he with hm | hm
        · exact hdisj hm (List.mem_cons_of_mem _ (List.mem_map_of_mem QItem.id hx))
        · cases hm
      have e1 : l₁.map (gPrev I) = setNextLast I.ll_next l₁ := by
        cases l₁ with
        | nil => rfl
        | cons a as =>
          obtain ⟨t, ht⟩ := lastLink_isSome (a :: as) (by simp) none
          have hIp' : I.ll_prev = some t := by rw [hIp, ht]
          have hfun : (a :: as).map (gPrev I) =
              (a :: as).map (updFn t (fun it => { it with ll_next := I.ll_next })) := by
            apply List.map_congr_left
            intro y _
            unfold gPrev updFn
            rw [hIp']
            by_cases hy : y.id = t
            · rw [if_pos (by rw [hy]), if_pos hy]
            · rw [if_neg (by intro he; exact hy (Option.some.inj he).symm), if_neg hy]
          rw [hfun]
          exact map_updFn_setNextLast I.ll_next (a :: as) t hnd1 ht
      rw [e1, e2, e3]
    rw [hmapPrev]
    cases hl2 : l₂ with
    | nil =>
      have hIn' : I.ll_next = none := by rw [hIn, hl2]; rfl
      rw [gNext_eq_id_fun I hIn', List.map_id]
      rfl
    | cons z t =>
      have hIn' : I.ll_next = some z.id := by rw [hIn, hl2]; rfl
      rw [List.map_append, List.map_cons]
      have eA : (setNextLast I.ll_next l₁).map (gNext I) = setNextLast I.ll_next l₁ := by
        apply map_eq_self
        intro x hx
        unfold gNext
        rw [hIn']
        rw [if_neg]
        intro he
        have hxid : x.id ∈ l₁.map QItem.id := by
          rw [← setNextLast_map_id I.ll_next l₁]
          exact List.mem_map_of_mem QItem.id hx
        have : z.id ∈ l₂.map QItem.id := by rw [hl2]; simp
        exact hdisj ((Option.some.inj he) ▸ hxid)
          (List.mem_cons_of_mem _ this)
      have eI : gNext I I = I := by
        unfold gNext
        rw [hIn', if_neg]
        intro he
        apply hI2
        rw [hl2]
        simp [← Option.some.inj he]
      have eB : (z :: t).map (gNext I) = setPrevHead I.ll_prev (z :: t) := by
        have hfun : (z :: t).map (gNext I) =
            (z :: t).map (updFn z.id (fun it => { it with ll_prev := I.ll_prev })) := by
          apply List.map_congr_left
          intro y _
          unfold gNext updFn
          rw [hIn']
          by_cases hy : y.id = z.id
          · rw [if_pos (by rw [hy]), if_pos hy]
          · rw [if_neg (by intro he; exact hy (Option.some.inj he).symm), if_neg hy]
        rw [hfun]
        apply map_updFn_setPrevHead
        have := hnd2
        rw [hl2, List.map_cons, List.nodup_cons] at this
        exact this.1
      rw [eA, eI, eB]

theorem get_first_of_chain (q : CfbotQueue) (x : QItem) (xs : List QItem)
    (hperm : q.items.Perm (x :: xs)) (hch : Chain none (x :: xs)) :
    get_first_item q = some x :=
  find?_of_perm_singleton _ x hperm (chain_filter_prev_none x xs hch)

theorem remove_item_master (q : CfbotQueue) (I : QItem) (l₁ l₂ : List QItem)
    (hperm : q.items.Perm (l₁ ++ I :: l₂))
    (hch : Chain none (l₁ ++ I :: l₂))
    (hnd : (q.items.map QItem.id).Nodup)
    (hbound : ∀ it ∈ q.items, 1 ≤ it.id ∧ it.id < q.next_id)
    (hcur : ∃ c, q.current_queue_item = some c ∧
      c ∈ (l₁ ++ I :: l₂).map QItem.id) :
    ∃ q', remove_item q I.id = .ok q' ∧
      q'.items.Perm (setNextLast I.ll_next l₁ ++ setPrevHead I.ll_prev l₂) ∧
      q'.next_id = q.next_id ∧
      QueueWF q' ∧
      (q.current_queue_item ≠ some I.id →
        q'.current_queue_item = q.current_queue_item) ∧
      (q.current_queue_item = some I.id →
        (∀ n, I.ll_next = some n → q'.current_queue_item = some n) ∧
        (I.ll_next = none → l₁ = [] → q'.current_queue_item = none) ∧
        (I.ll_next = none → ∀ a as, l₁ = a :: as →
          q'.current_queue_item = some a.id)) ∧
      (∀ it ∈ q.items, it.id ≠ I.id →
        ({ it with
           ll_next := if I.ll_prev = some it.id then I.ll_next else it.ll_next
           ll_prev := if I.ll_next = some it.id then I.ll_prev else it.ll_prev } :
          QItem) ∈ q'.items) := by
  obtain ⟨hq2items, hqmap⟩ := remove_stage2 q I l₁ l₂ hperm hch hnd
  have hndl : ((l₁ ++ I :: l₂).map QItem.id).Nodup :=
    ((hperm.map QItem.id).nodup_iff).mp hnd
  rw [List.map_append, List.map_cons] at hndl
  rcases List.nodup_append.mp hndl with ⟨hnd1, hndc, hdisj⟩
  have hI1 : I.id ∉ l₁.map QItem.id := fun hmem => hdisj hmem (List.mem_cons_self _ _)
  have hI2 : I.id ∉ l₂.map QItem.id := (List.nodup_cons.mp hndc).1
  have hnd2 : (l₂.map QItem.id).Nodup := (List.nodup_cons.mp hndc).2
  obtain ⟨hIp, hIn, hIrest⟩ := chain_split none l₁ I l₂ hch
  obtain ⟨c, hc, hcmem⟩ := hcur
  have hfound : findItem q I.id = some I := find?_id_of_perm hperm hnd (by simp)
  have hq2cursor : (removeNextFix (removePrevFix q I) I).current_queue_item =
      q.current_queue_item := by
    rw [removeNextFix_cursor, removePrevFix_cursor]
  have hq2nid : (removeNextFix (removePrevFix q I) I).next_id = q.next_id := by
    rw [removeNextFix_next_id, removePrevFix_next_id]
  have hq2perm : (removeNextFix (removePrevFix q I) I).items.Perm
      (setNextLast I.ll_next l₁ ++ I :: setPrevHead I.ll_prev l₂) := by
    rw [hq2items, ← hqmap]
    exact (hperm.map (gPrev I)).map (gNext I)
  have hfilter : (setNextLast I.ll_next l₁ ++ I :: setPrevHead I.ll_prev l₂).filter
      (fun it => it.id ≠ I.id) =
      setNextLast I.ll_next l₁ ++ setPrevHead I.ll_prev l₂ := by
    rw [List.filter_append]
    rw [filter_ne_of_not_mem _ _ (by rwa [setNextLast_map_id])]
    rw [List.filter_cons_of_neg (by simp)]
    rw [filter_ne_of_not_mem _ _ (by rwa [setPrevHead_map_id])]
  have hl'ids : (setNextLast I.ll_next l₁ ++ setPrevHead I.ll_prev l₂).map QItem.id =
      l₁.map QItem.id ++ l₂.map QItem.id := by
    rw [List.map_append, setNextLast_map_id, setPrevHead_map_id]
  have hl'nd : ((setNextLast I.ll_next l₁ ++ setPrevHead I.ll_prev l₂).map
      QItem.id).Nodup := by
    rw [hl'ids]
    exact List.nodup_append.mpr ⟨hnd1, hnd2,
      fun a ha hb => hdisj ha (List.mem_cons_of_mem _ hb)⟩
  have hchain' : Chain none (setNextLast I.ll_next l₁ ++ setPrevHead I.ll_prev l₂) :=
    chain_remove l₁ none I l₂ hch
  have hfix : ∃ q3, removeCursorFix (removeNextFix (removePrevFix q I) I) I = .ok q3 ∧
      q3.items = (removeNextFix (removePrevFix q I) I).items ∧
      q3.next_id = q.next_id ∧
      (q.current_queue_item ≠ some I.id →
        q3.current_queue_item = q.current_queue_item) ∧
      (q.current_queue_item = some I.id →
        (∀ n, I.ll_next = some n → q3.current_queue_item = some n) ∧
        (I.ll_next = none → l₁ = [] → q3.current_queue_item = none) ∧
        (I.ll_next = none → ∀ a as, l₁ = a :: as →
          q3.current_queue_item = some a.id)) ∧
      (match q3.current_queue_item with
       | none => (setNextLast I.ll_next l₁ ++ setPrevHead I.ll_prev l₂) = []
       | some c' => ∃ it ∈ setNextLast I.ll_next l₁ ++ setPrevHead I.ll_prev l₂,
           it.id = c') := by
    by_cases hCI : q.current_queue_item = some I.id
    · cases hLN : I.ll_next with
      | some n =>
        refine ⟨{ removeNextFix (removePrevFix q I) I with
            current_queue_item := some n }, ?_, rfl, hq2nid,
          fun hne => absurd hCI hne, ?_, ?_⟩
        · simp only [removeCursorFix, hq2cursor, hCI, hLN]
          simp
        · intro _
          refine ⟨fun n' hn' => ?_, fun hnone => ?_, fun hnone => ?_⟩
          · injection hn' with h
            show some n = some n'
            rw [h]
          · cases hnone
          · cases hnone
        · have hn2 : headId l₂ = some n := by rw [← hIn, hLN]
          cases l₂ with
          | nil => simp [headId] at hn2
          | cons z t =>
            injection hn2 with hn2
            show ∃ it ∈ _, it.id = n
            refine ⟨{ z with ll_prev := I.ll_prev }, ?_, by simpa using hn2⟩
            apply List.mem_append_right
            exact List.mem_cons_self _ _
      | none =>
        have hl2 : l₂ = [] := by
          cases hx : l₂ with
          | nil => rfl
          | cons z t =>
            rw [hx] at hIn
            rw [hLN] at hIn
            cases hIn
        have hq2map : (removeNextFix (removePrevFix q I) I).items =
            q.items.map (gPrev I) := by
          rw [hq2items, gNext_eq_id_fun I hLN, List.map_id]
        have hfstable : get_first_item (removeNextFix (removePrevFix q I) I) =
            (get_first_item q).map (gPrev I) := by
          unfold get_first_item
          rw [hq2map]
          apply find?_map_stable
          intro y
          have := gPrev_prev I y
          simp [this]
        cases hl1 : l₁ with
        | nil =>
          have hpermI : q.items.Perm (I :: ([] : List QItem)) := by
            rw [hl1, List.nil_append, hl2] at hperm
            exact hperm
          have hchI : Chain none (I :: ([] : List QItem)) := by
            rw [hl1, List.nil_append, hl2] at hch
            exact hch
          have hfq : get_first_item q = some I := get_first_of_chain q I [] hpermI hchI
          have hgI : gPrev I I = I := by
            rw [gPrev_eq_id_fun I (by rw [hIp, hl1]; rfl)]
            rfl
          refine ⟨{ removeNextFix (removePrevFix q I) I with
              current_queue_item := none }, ?_, rfl, hq2nid,
            fun hne => absurd hCI hne, ?_, ?_⟩
          · simp only [removeCursorFix, hq2cursor, hCI, hLN, hfstable, hfq,
              Option.map_some', hgI]
            simp
          · intro _
            refine ⟨fun n' hn' => ?_, fun _ _ => rfl, fun _ a as has => ?_⟩
            · cases hn'
            · cases has
          · show setNextLast none [] ++ setPrevHead I.ll_prev l₂ = []
            rw [hl2]
            rfl
        | cons a as =>
          have hperm2 : q.items.Perm (a :: (as ++ I :: l₂)) := by
            have hp := hperm
            rw [hl1] at hp
            exact hp
          have hch2 : Chain none (a :: (as ++ I :: l₂)) := by
            have hc2 := hch
            rw [hl1] at hc2
            exact hc2
          have hfq : get_first_item q = some a :=
            get_first_of_chain q a (as ++ I :: l₂) hperm2 hch2
          have haI : ¬ (a.id = I.id) := by
            intro he
            exact hI1 (by rw [hl1, ← he]; simp)
          refine ⟨{ removeNextFix (removePrevFix q I) I with
              current_queue_item := some a.id }, ?_, rfl, hq2nid,
            fun hne => absurd hCI hne, ?_, ?_⟩
          · simp only [removeCursorFix, hq2cursor, hCI, hLN, hfstable, hfq,
              Option.map_some', gPrev_id]
            simp [haI]
          · intro _
            refine ⟨fun n' hn' => ?_, fun _ hnil => ?_, fun _ a' as' has' => ?_⟩
            · cases hn'
            · cases hnil
            · injection has' with h1 _
              show some a.id = some a'.id
              rw [h1]
          · show ∃ it ∈ setNextLast none (a :: as) ++ setPrevHead I.ll_prev l₂,
              it.id = a.id
            have haids : a.id ∈ (setNextLast none (a :: as) ++
                setPrevHead I.ll_prev l₂).map QItem.id := by
              rw [List.map_append, setNextLast_map_id]
              exact List.mem_append_left _ (by simp)
            obtain ⟨it, hit, hitid⟩ := List.mem_map.mp haids
            exact ⟨it, hit, hitid⟩
    · refine ⟨removeNextFix (removePrevFix q I) I, ?_, rfl, hq2nid,
        fun _ => hq2cursor, fun he => absurd he hCI, ?_⟩
      · simp only [removeCursorFix, hq2cursor]
        simp [hCI]
      · rw [hq2cursor, hc]
        have hcI : c ≠ I.id := fun he => hCI (by rw [hc, he])
        have hcm : c ∈ (setNextLast I.ll_next l₁ ++ setPrevHead I.ll_prev l₂).map
            QItem.id := by
          rw [hl'ids]
          rw [List.map_append, List.map_cons] at hcmem
          rcases List.mem_append.mp hcmem with h | h
          · exact List.mem_append_left _ h
          · rcases List.mem_cons.mp h with h | h
            · exact absurd h hcI
            · exact List.mem_append_right _ h
        obtain ⟨it, hit, hitid⟩ := List.mem_map.mp hcm
        exact ⟨it, hit, hitid⟩
  obtain ⟨q3, hfixeq, hq3items, hq3nid, hP1, hP2, hP3⟩ := hfix
  have hq'perm : (delRow q3 I.id).items.Perm
      (setNextLast I.ll_next l₁ ++ setPrevHead I.ll_prev l₂) := by
    show (q3.items.filter _).Perm _
    rw [hq3items]
    have := hq2perm.filter (fun it => it.id ≠ I.id)
    rwa [hfilter] at this
  refine ⟨delRow q3 I.id, ?_, hq'perm, hq3nid, ?_, hP1, hP2, ?_⟩
  · simp only [remove_item, hfound, hfixeq]
  · refine ⟨setNextLast I.ll_next l₁ ++ setPrevHead I.ll_prev l₂, hq'perm, hchain',
      ?_, ?_, ?_⟩
    · exact ((hq'perm.map QItem.id).nodup_iff).mpr hl'nd
    · intro it hit
      have hit2 : it ∈ (removeNextFix (removePrevFix q I) I).items := by
        rw [← hq3items]
        exact (List.mem_filter.mp hit).1
      rw [hq2items] at hit2
      obtain ⟨y, hy, hyeq⟩ := List.mem_map.mp hit2
      obtain ⟨y0, hy0, hy0eq⟩ := List.mem_map.mp hy
      have hid : it.id = y0.id := by rw [← hyeq, ← hy0eq, gNext_id, gPrev_id]
      have hb := hbound y0 hy0
      exact ⟨by rw [hid]; exact hb.1, by
        show it.id < (delRow q3 I.id).next_id
        have he : (delRow q3 I.id).next_id = q3.next_id := rfl
        rw [he, hq3nid, hid]
        exact hb.2⟩
    · show (match (delRow q3 I.id).current_queue_item with
        | none => (setNextLast I.ll_next l₁ ++ setPrevHead I.ll_prev l₂) = []
        | some c' => ∃ it ∈ setNextLast I.ll_next l₁ ++ setPrevHead I.ll_prev l₂,
            it.id = c')
      exact hP3
  · intro it hit hitne
    have h2 : gNext I (gPrev I it) ∈ (removeNextFix (removePrevFix q I) I).items := by
      rw [hq2items]
      exact List.mem_map_of_mem _ (List.mem_map_of_mem _ hit)
    have heq : gNext I (gPrev I it) =
        ({ it with
           ll_next := if I.ll_prev = some it.id then I.ll_next else it.ll_next
           ll_prev := if I.ll_next = some it.id then I.ll_prev else it.ll_prev } :
          QItem) := by
      unfold gPrev gNext
      by_cases h1 : I.ll_prev = some it.id <;> by_cases h2 : I.ll_next = some it.id <;>
        simp [h1, h2]
    rw [← heq]
    show _ ∈ q3.items.filter _
    apply List.mem_filter.mpr
    refine ⟨by rw [hq3items]; exact h2, ?_⟩
    simp only [gNext_id, gPrev_id]
    simpa using hitne

theorem mem_setNextLast {y : QItem} {v : Option Nat} {l : List QItem}
    (h : y ∈ setNextLast v l) :
    ∃ y₀ ∈ l, y.id = y₀.id ∧ y.patch_id = y₀.patch_id ∧
      y.message_id = y₀.message_id := by
  induction l with
  | nil => cases h
  | cons a as ih =>
    cases as with
    | nil =>
      rcases List.mem_singleton.mp h with rfl
      exact ⟨a, by simp, rfl, rfl, rfl⟩
    | cons b bs =>
      rcases List.mem_cons.mp h with rfl | h2
      · exact ⟨y, by simp, rfl, rfl, rfl⟩
      · obtain ⟨y₀, hy₀, he⟩ := ih h2
        exact ⟨y₀, List.mem_cons_of_mem _ hy₀, he⟩

theorem mem_setPrevHead {y : QItem} {v : Option Nat} {l : List QItem}
    (h : y ∈ setPrevHead v l) :
    ∃ y₀ ∈ l, y.id = y₀.id ∧ y.patch_id = y₀.patch_id ∧
      y.message_id = y₀.message_id := by
  cases l with
  | nil => cases h
  | cons a as =>
    rcases List.mem_cons.mp h with rfl | h2
    · exact ⟨a, by simp, rfl, rfl, rfl⟩
    · exact ⟨y, List.mem_cons_of_mem _ h2, rfl, rfl, rfl⟩

theorem remove_item_wf (q : CfbotQueue) (iid : Nat) (I : QItem)
    (hwf : QueueWF q) (hfound : findItem q iid = some I) :
    ∃ q', remove_item q iid = .ok q' ∧ QueueWF q' ∧ q'.next_id = q.next_id ∧
      (∀ it ∈ q'.items, it.id ≠ iid) ∧
      (∀ it ∈ q'.items, ∃ it₀ ∈ q.items, it.id = it₀.id ∧
        it.patch_id = it₀.patch_id ∧ it.message_id = it₀.message_id) ∧
      (∀ it ∈ q.items, it.id ≠ iid →
        ({ it with
           ll_next := if I.ll_prev = some it.id then I.ll_next else it.ll_next
           ll_prev := if I.ll_next = some it.id then I.ll_prev else it.ll_prev } :
          QItem) ∈ q'.items) ∧
      (q.current_queue_item ≠ some iid →
        q'.current_queue_item = q.current_queue_item) ∧
      (q.current_queue_item = some iid →
        (∀ n, I.ll_next = some n → q'.current_queue_item = some n) ∧
        (I.ll_next = none → q.items.length = 1 → q'.current_queue_item = none) ∧
        (I.ll_next = none → 1 < q.items.length →
          ∃ f ∈ q.items, f.ll_prev = none ∧ q'.current_queue_item = some f.id)) := by
  obtain ⟨l, hperm, hch, hnd, hbound, hcurm⟩ := hwf
  have hIq : I ∈ q.items := List.mem_of_find?_eq_some hfound
  have hIid : I.id = iid := by simpa using List.find?_some hfound
  have hIl : I ∈ l := hperm.mem_iff.mp hIq
  obtain ⟨l₁, l₂, rfl⟩ := List.append_of_mem hIl
  have hlen : q.items.length = l₁.length + 1 + l₂.length := by
    rw [hperm.length_eq]
    simp [Nat.add_comm, Nat.add_assoc, Nat.add_left_comm]
  have hcur : ∃ c, q.current_queue_item = some c ∧
      c ∈ (l₁ ++ I :: l₂).map QItem.id := by
    cases hqc : q.current_queue_item with
    | none =>
      rw [hqc] at hcurm
      simp at hcurm
    | some c =>
      rw [hqc] at hcurm
      obtain ⟨it, hitl, hitid⟩ := hcurm
      exact ⟨c, rfl, by
        rw [← hitid]
        exact List.mem_map_of_mem QItem.id hitl⟩
  obtain ⟨q', heq, hq'perm, hq'nid, hq'wf, hc1, hc2, hframe⟩ :=
    remove_item_master q I l₁ l₂ hperm hch hnd hbound hcur
  have hl'ids : (setNextLast I.ll_next l₁ ++ setPrevHead I.ll_prev l₂).map QItem.id =
      l₁.map QItem.id ++ l₂.map QItem.id := by
    rw [List.map_append, setNextLast_map_id, setPrevHead_map_id]
  have hndl : ((l₁ ++ I :: l₂).map QItem.id).Nodup :=
    ((hperm.map QItem.id).nodup_iff).mp hnd
  rw [List.map_append, List.map_cons] at hndl
  rcases List.nodup_append.mp hndl with ⟨hnd1, hndc, hdisj⟩
  have hI1 : I.id ∉ l₁.map QItem.id := fun hmem => hdisj hmem (List.mem_cons_self _ _)
  have hI2 : I.id ∉ l₂.map QItem.id := (List.nodup_cons.mp hndc).1
  refine ⟨q', hIid ▸ heq, hq'wf, hq'nid, ?_, ?_, ?_, ?_, ?_⟩
  · intro it hit
    have : it.id ∈ (setNextLast I.ll_next l₁ ++ setPrevHead I.ll_prev l₂).map
        QItem.id := by
      exact List.mem_map_of_mem QItem.id (hq'perm.mem_iff.mp hit)
    rw [hl'ids] at this
    intro he
    rw [he, ← hIid] at this
    rcases List.mem_append.mp this with h | h
    · exact hI1 h
    · exact hI2 h
  · intro it hit
    have hml : it ∈ setNextLast I.ll_next l₁ ++ setPrevHead I.ll_prev l₂ :=
      hq'perm.mem_iff.mp hit
    rcases List.mem_append.mp hml with h | h
    · obtain ⟨y₀, hy₀, he1, he2, he3⟩ := mem_setNextLast h
      exact ⟨y₀, hperm.mem_iff.mpr (by simp [hy₀]), he1, he2, he3⟩
    · obtain ⟨y₀, hy₀, he1, he2, he3⟩ := mem_setPrevHead h
      exact ⟨y₀, hperm.mem_iff.mpr (by
        apply List.mem_append_right
        exact List.mem_cons_of_mem _ hy₀), he1, he2, he3⟩
  · intro it hit hitne
    exact hframe it hit (by rw [hIid]; exact hitne)
  · intro hne
    exact hc1 (by rw [hIid]; exact hne)
  · intro he
    obtain ⟨hn, hnil, hcons⟩ := hc2 (by rw [hIid]; exact he)
    refine ⟨hn, ?_, ?_⟩
    · intro hnone hlen1
      apply hnil hnone
      rw [hlen] at hlen1
      cases hl1 : l₁ with
      | nil => rfl
      | cons a as =>
        rw [hl1] at hlen1
        simp at hlen1
        exact absurd hlen1 (by omega)
    · intro hnone hlen2
      cases hl1 : l₁ with
      | nil =>
        rw [hlen, hl1] at hlen2
        have hl2 : l₂ = [] := by
          have := chain_split none l₁ I l₂ hch
          cases hx : l₂ with
          | nil => rfl
          | cons z t =>
            rw [hx] at this
            rw [hnone] at this
            rcases this with ⟨_, hcontra, _⟩
            cases hcontra
        rw [hl2] at hlen2
        simp at hlen2
      | cons a as =>
        have hhead : (l₁ ++ I :: l₂) = a :: (as ++ I :: l₂) := by rw [hl1]; rfl
        have hahead : a.ll_prev = none := by
          have := hch
          rw [hhead] at this
          exact this.1
        refine ⟨a, hperm.mem_iff.mpr (by rw [hhead]; simp), hahead,
          hcons hnone a as hl1⟩

theorem chain_map_links (f : QItem → QItem)
    (hid : ∀ y, (f y).id = y.id) (hprev : ∀ y, (f y).ll_prev = y.ll_prev)
    (hnext : ∀ y, (f y).ll_next = y.ll_next) (l : List QItem) :
    ∀ p : Option Nat, Chain p l → Chain p (l.map f) := by
  induction l with
  | nil => intro p _; exact trivial
  | cons x xs ih =>
    intro p h
    obtain ⟨hp, hnx, hrest⟩ := h
    refine ⟨by rw [hprev x]; exact hp, ?_, ?_⟩
    · rw [hnext x, hnx]
      cases xs with
      | nil => rfl
      | cons y t => simp [headId, hid y]
    · have := ih (some x.id) hrest
      rw [hid x]
      exact this

theorem chain_next_mem (l : List QItem) (x : QItem) (n : Nat)
    (hch : Chain none l) (hx : x ∈ l) (hn : x.ll_next = some n) :
    n ∈ l.map QItem.id := by
  obtain ⟨A, B, rfl⟩ := List.append_of_mem hx
  obtain ⟨_, hnx, _⟩ := chain_split none A x B hch
  rw [hn] at hnx
  cases B with
  | nil => cases hnx
  | cons y t =>
    injection hnx with h
    rw [h]
    simp

/-- The queue after one pass of `get_and_move`: the departed item stamped,
the cursor moved to `ncid`. -/
def gamStep (q : CfbotQueue) (cid ncid : Nat) (now : Nat) : CfbotQueue :=
  { (updRow q cid (fun it => { it with processed_date := some now })) with
    current_queue_item := some ncid }

theorem gamStep_items (q : CfbotQueue) (cid ncid now : Nat) :
    (gamStep q cid ncid now).items =
      q.items.map (updFn cid (fun it => { it with processed_date := some now })) := rfl

theorem gamStep_wf (q : CfbotQueue) (cid ncid now : Nat) (cur : QItem)
    (hwf : QueueWF q) (hcur : findItem q cid = some cur)
    (hres : cur.ll_next = some ncid ∨
      (cur.ll_next = none ∧ ∃ f, get_first_item q = some f ∧ f.id = ncid)) :
    QueueWF (gamStep q cid ncid now) := by
  obtain ⟨l, hperm, hch, hnd, hbound, hcurm⟩ := hwf
  refine ⟨l.map (updFn cid (fun it => { it with processed_date := some now })),
    ?_, ?_, ?_, ?_, ?_⟩
  · rw [gamStep_items]
    exact hperm.map _
  · exact chain_map_links _
      (fun y => by unfold updFn; split <;> rfl)
      (fun y => by unfold updFn; split <;> rfl)
      (fun y => by unfold updFn; split <;> rfl) l none hch
  · rw [gamStep_items, map_id_updFn q.items cid
      (fun it => { it with processed_date := some now }) (fun y => rfl)]
    exact hnd
  · intro it hit
    rw [gamStep_items] at hit
    obtain ⟨y, hy, hyeq⟩ := List.mem_map.mp hit
    have hb := hbound y hy
    have hide : it.id = y.id := by
      rw [← hyeq]
      unfold updFn
      split <;> rfl
    exact ⟨by rw [hide]; exact hb.1, by rw [hide]; exact hb.2⟩
  · have hmem : ncid ∈ l.map QItem.id := by
      rcases hres with h | ⟨_, f, hf, hfid⟩
      · have hcl : cur ∈ l := hperm.mem_iff.mp (List.mem_of_find?_eq_some hcur)
        exact chain_next_mem l cur ncid hch hcl h
      · have hfl : f ∈ l := hperm.mem_iff.mp (List.mem_of_find?_eq_some hf)
        rw [← hfid]
        exact List.mem_map_of_mem QItem.id hfl
    rw [← map_id_updFn l cid (fun it => { it with processed_date := some now })
      (fun y => rfl)] at hmem
    obtain ⟨it, hit, hitid⟩ := List.mem_map.mp hmem
    exact ⟨it, hit, hitid⟩

theorem gam_unfold (now fuel : Nat) (q : CfbotQueue) (cid : Nat) (cur : QItem)
    (ncid : Nat) (nxt : QItem)
    (hc : q.current_queue_item = some cid)
    (hcur : findItem q cid = some cur)
    (hres : cur.ll_next = some ncid ∨
      (cur.ll_next = none ∧ ∃ f, get_first_item q = some f ∧ f.id = ncid))
    (hnxt : findItem q ncid = some nxt) :
    get_and_move now (fuel + 1) q =
      if cur.ignore_date ≠ none then get_and_move now fuel (gamStep q cid ncid now)
      else some (.ok (gamStep q cid ncid now,
        some { cur with processed_date := some now }, some nxt)) := by
  simp only [get_and_move, hc, hcur]
  rcases hres with h | ⟨h0, f, hf, hfid⟩
  · simp only [h, hnxt]
    rfl
  · simp only [h0, hf, hfid, hnxt]
    rfl

theorem gam_skip : ∀ (fuel now : Nat) (q q' : CfbotQueue) (r : QItem)
    (nx : Option QItem),
    get_and_move now fuel q = some (.ok (q', some r, nx)) →
    r.ignore_date = none := by
  intro fuel
  induction fuel with
  | zero => intro now q q' r nx h; exact Option.noConfusion h
  | succ n ih =>
    intro now q q' r nx h
    simp only [get_and_move] at h
    cases hqc : q.current_queue_item with
    | none => simp [hqc] at h
    | some cid =>
      simp only [hqc] at h
      cases hcur : findItem q cid with
      | none => simp [hcur] at h
      | some cur =>
        simp only [hcur] at h
        cases hln : cur.ll_next with
        | some nn =>
          simp only [hln] at h
          cases hnxt : findItem q nn with
          | none => simp [hnxt] at h
          | some nxt =>
            simp only [hnxt] at h
            by_cases hig : cur.ignore_date ≠ none
            · rw [if_pos hig] at h
              exact ih now _ q' r nx h
            · rw [if_neg hig] at h
              push_neg at hig
              simp only [Option.some.injEq, Except.ok.injEq, Prod.mk.injEq] at h
              obtain ⟨-, h2, -⟩ := h
              rw [← h2]
              exact hig
        | none =>
          cases hf : get_first_item q with
          | none => simp [hln, hf] at h
          | some f =>
            simp only [hln, hf] at h
            cases hnxt : findItem q f.id with
            | none => simp [hnxt] at h
            | some nxt =>
              simp only [hnxt] at h
              by_cases hig : cur.ignore_date ≠ none
              · rw [if_pos hig] at h
                exact ih now _ q' r nx h
              · rw [if_neg hig] at h
                push_neg at hig
                simp only [Option.some.injEq, Except.ok.injEq, Prod.mk.injEq] at h
                obtain ⟨-, h2, -⟩ := h
                rw [← h2]
                exact hig

theorem gam_diverges : ∀ (fuel now : Nat) (q : CfbotQueue), QueueWF q →
    q.items ≠ [] → (∀ it ∈ q.items, it.ignore_date ≠ none) →
    get_and_move now fuel q = none := by
  intro fuel
  induction fuel with
  | zero => intro now q _ _ _; rfl
  | succ n ih =>
    intro now q hwf hne hig
    obtain ⟨l, hperm, hch, hnd, hbound, hcurm⟩ := hwf
    have hlne : l ≠ [] := by
      intro he
      rw [he] at hperm
      exact hne hperm.eq_nil
    cases hqc : q.current_queue_item with
    | none =>
      rw [hqc] at hcurm
      exact absurd hcurm hlne
    | some cid =>
      rw [hqc] at hcurm
      obtain ⟨itc, hitcl, hitcid⟩ := hcurm
      have hcs : ∃ cur, findItem q cid = some cur := by
        cases hx : findItem q cid with
        | none =>
          exfalso
          have := List.find?_eq_none.mp hx itc (hperm.mem_iff.mpr hitcl)
          simp [hitcid] at this
        | some cur => exact ⟨cur, rfl⟩
      obtain ⟨cur, hcur⟩ := hcs
      have hcurq : cur ∈ q.items := List.mem_of_find?_eq_some hcur
      have hres : ∃ ncid nxt, findItem q ncid = some nxt ∧
          (cur.ll_next = some ncid ∨
            (cur.ll_next = none ∧ ∃ f, get_first_item q = some f ∧ f.id = ncid)) := by
        cases hln : cur.ll_next with
        | some nn =>
          have hmem : nn ∈ l.map QItem.id :=
            chain_next_mem l cur nn hch (hperm.mem_iff.mp hcurq) hln
          obtain ⟨x, hx, hxid⟩ := List.mem_map.mp hmem
          refine ⟨nn, x, ?_, Or.inl rfl⟩
          exact find?_of_perm_singleton _ x hperm (by
            rw [← hxid]
            exact filter_id_singleton hx (((hperm.map QItem.id).nodup_iff).mp hnd))
        | none =>
          cases hl : l with
          | nil => exact absurd hl hlne
          | cons x xs =>
            have hf : get_first_item q = some x :=
              get_first_of_chain q x xs (hl ▸ hperm) (hl ▸ hch)
            refine ⟨x.id, x, ?_, Or.inr ⟨rfl, x, hf, rfl⟩⟩
            exact find?_id_of_perm hperm hnd (by rw [hl]; simp)
      obtain ⟨ncid, nxt, hnxt, hres⟩ := hres
      rw [gam_unfold now n q cid cur ncid nxt hqc hcur hres hnxt]
      rw [if_pos (hig cur hcurq)]
      apply ih
      · exact gamStep_wf q cid ncid now cur ⟨l, hperm, hch, hnd, hbound, by
          rw [hqc]; exact ⟨itc, hitcl, hitcid⟩⟩ hcur hres
      · rw [gamStep_items]
        intro he
        exact hne (List.map_eq_nil_iff.mp he)
      · intro it hit
        rw [gamStep_items] at hit
        obtain ⟨y, hy, hyeq⟩ := List.mem_map.mp hit
        have : it.ignore_date = y.ignore_date := by
          rw [← hyeq]
          unfold updFn
          split <;> rfl
        rw [this]
        exact hig y hy

def qiOne : QItem :=
  { id := 1, patch_id := 101, message_id := "msg101", ignore_date := none,
    processed_date := none, ll_prev := none, ll_next := none,
    last_base_commit_sha := none }

def qOne : CfbotQueue :=
  { items := [qiOne], current_queue_item := some 1, next_id := 2 }

def qiIgn : QItem :=
  { id := 1, patch_id := 55, message_id := "m55", ignore_date := some 4,
    processed_date := none, ll_prev := none, ll_next := none,
    last_base_commit_sha := none }

def qAllIgn : CfbotQueue :=
  { items := [qiIgn], current_queue_item := some 1, next_id := 2 }

theorem qAllIgn_wf : QueueWF qAllIgn :=
  ⟨[qiIgn], List.Perm.refl _, ⟨rfl, rfl, trivial⟩, by decide, by decide,
    ⟨qiIgn, by decide⟩⟩

/-- `get_and_move` runs out of fuel on every all-ignored queue: the
fuel-indexed model returns `none` (the nontermination marker) at every fuel. -/
def gamDiverges (q : CfbotQueue) : Prop :=
  ∀ (fuel now : Nat), get_and_move now fuel q = none

/-- C6: when the cursor item is not ignored, `get_and_move` returns that item
with `processed_date` stamped to the current time, and the new cursor is the
returned item's `ll_next`, wrapping to the first item when `ll_next` is null
(hypothesis `hres`); on the ring of exactly one item, the returned item and
the new current item are the same item. -/
theorem claim_C6 (now fuel : Nat) (q : CfbotQueue) (cid : Nat) (cur : QItem)
    (ncid : Nat) (nxt : QItem)
    (hc : q.current_queue_item = some cid)
    (hcur : findItem q cid = some cur)
    (hig : cur.ignore_date = none)
    (hres : cur.ll_next = some ncid ∨
      (cur.ll_next = none ∧ ∃ f, get_first_item q = some f ∧ f.id = ncid))
    (hnxt : findItem q ncid = some nxt) :
    (get_and_move now (fuel + 1) q =
      some (.ok (gamStep q cid ncid now,
        some { cur with processed_date := some now }, some nxt)) ∧
     ({ cur with processed_date := some now } : QItem).processed_date = some now ∧
     (gamStep q cid ncid now).current_queue_item = some ncid) ∧
    (get_and_move 7 1 qOne).map (Except.map (fun r =>
      (r.2.1.map QItem.id, r.1.current_queue_item))) = some (.ok (some 1, some 1)) := by
  refine ⟨⟨?_, rfl, rfl⟩, rfl⟩
  rw [gam_unfold now fuel q cid cur ncid nxt hc hcur hres hnxt,
    if_neg (by simp [hig])]

theorem claim_C6_witness :
    (get_and_move 7 1 qOne =
      some (.ok (gamStep qOne 1 1 7,
        some { qiOne with processed_date := some 7 }, some qiOne)) ∧
     ({ qiOne with processed_date := some 7 } : QItem).processed_date = some 7 ∧
     (gamStep qOne 1 1 7).current_queue_item = some 1) ∧
    (get_and_move 7 1 qOne).map (Except.map (fun r =>
      (r.2.1.map QItem.id, r.1.current_queue_item))) = some (.ok (some 1, some 1)) :=
  claim_C6 7 0 qOne 1 qiOne 1 qiOne rfl rfl rfl
    (Or.inr ⟨rfl, qiOne, rfl, rfl⟩) rfl

/-- C10: an ignored item at the cursor is still mutated by `get_and_move`:
its row is stamped with `processed_date := now` and the cursor is advanced
past it exactly as for a returned item, after which the call recurses; all
other rows are untouched and the table keeps its length. -/
theorem claim_C10 (now fuel : Nat) (q : CfbotQueue) (cid : Nat) (cur : QItem)
    (ncid : Nat) (nxt : QItem)
    (hc : q.current_queue_item = some cid)
    (hcur : findItem q cid = some cur)
    (hig : cur.ignore_date ≠ none)
    (hres : cur.ll_next = some ncid ∨
      (cur.ll_next = none ∧ ∃ f, get_first_item q = some f ∧ f.id = ncid))
    (hnxt : findItem q ncid = some nxt) :
    get_and_move now (fuel + 1) q = get_and_move now fuel (gamStep q cid ncid now) ∧
    findItem (gamStep q cid ncid now) cid =
      some { cur with processed_date := some now } ∧
    (gamStep q cid ncid now).current_queue_item = some ncid ∧
    (∀ it ∈ q.items, it.id ≠ cid → it ∈ (gamStep q cid ncid now).items) ∧
    (gamStep q cid ncid now).items.length = q.items.length := by
  have hcur' : List.find? (fun it => decide (it.id = cid)) q.items = some cur := hcur
  have hp := List.find?_some hcur'
  have hid : cur.id = cid := by simpa using hp
  refine ⟨?_, ?_, rfl, ?_, ?_⟩
  · rw [gam_unfold now fuel q cid cur ncid nxt hc hcur hres hnxt, if_pos hig]
  · have h1 := find?_updRow q cid (fun it => { it with processed_date := some now })
      (fun it => decide (it.id = cid)) cur hcur (fun y => rfl)
    exact h1.trans (congrArg some (if_pos hid))
  · intro it hit hne
    rw [gamStep_items]
    exact List.mem_map.mpr ⟨it, hit, by simp [updFn, hne]⟩
  · rw [gamStep_items, List.length_map]

theorem claim_C10_witness :
    get_and_move 4 1 qAllIgn = get_and_move 4 0 (gamStep qAllIgn 1 1 4) ∧
    findItem (gamStep qAllIgn 1 1 4) 1 = some { qiIgn with processed_date := some 4 } ∧
    (gamStep qAllIgn 1 1 4).current_queue_item = some 1 ∧
    (gamStep qAllIgn 1 1 4).items.length = qAllIgn.items.length := by
  obtain ⟨h1, h2, h3, -, h5⟩ := claim_C10 4 0 qAllIgn 1 qiIgn 1 qiIgn rfl rfl
    (by decide) (Or.inr ⟨rfl, qiIgn, rfl, rfl⟩) rfl
  exact ⟨h1, h2, h3, h5⟩

/-- C2 (counterexample): on the concrete non-empty queue `qAllIgn`, in which
every item has `ignore_date` set, `get_and_move` does not terminate — the
fuel-indexed model returns `none` at every fuel — instead of terminating and
returning `(null, null)` as the claim states. -/
theorem claim_C2_counterexample :
    qAllIgn.items.isEmpty = false ∧
    qAllIgn.items.all (fun it => it.ignore_date.isSome) = true ∧
    gamDiverges qAllIgn := by
  refine ⟨rfl, rfl, ?_⟩
  intro fuel now
  exact gam_diverges fuel now qAllIgn qAllIgn_wf (by decide) (by decide)

/-- C2 (amended): `get_and_move` skips every ignored item — any item it
returns has `ignore_date` null — but on a well-formed non-empty queue in
which every item is ignored it recurses forever (returns `none` at every
fuel) rather than terminating with `(null, null)`. -/
theorem claim_C2_amended :
    (∀ (fuel now : Nat) (q q' : CfbotQueue) (r : QItem) (nx : Option QItem),
      get_and_move now fuel q = some (.ok (q', some r, nx)) →
      r.ignore_date = none) ∧
    (∀ (q : CfbotQueue), QueueWF q → q.items ≠ [] →
      (∀ it ∈ q.items, it.ignore_date ≠ none) → gamDiverges q) :=
  ⟨fun fuel now q q' r nx h => gam_skip fuel now q q' r nx h,
   fun q hwf hne hig fuel now => gam_diverges fuel now q hwf hne hig⟩

theorem claim_C2_witness :
    ({ qiOne with processed_date := some 7 } : QItem).ignore_date = none ∧
    get_and_move 3 5 qAllIgn = none :=
  ⟨claim_C2_amended.1 1 7 qOne (gamStep qOne 1 1 7)
      { qiOne with processed_date := some 7 } (some qiOne) rfl,
   claim_C2_amended.2 qAllIgn qAllIgn_wf (by decide) (by decide) 5 3⟩

def qiA : QItem :=
  { id := 1, patch_id := 10, message_id := "a", ignore_date := none,
    processed_date := none, ll_prev := none, ll_next := some 2,
    last_base_commit_sha := none }

def qiB : QItem :=
  { id := 2, patch_id := 20, message_id := "b", ignore_date := none,
    processed_date := none, ll_prev := some 1, ll_next := some 3,
    last_base_commit_sha := none }

def qiC : QItem :=
  { id := 3, patch_id := 30, message_id := "c", ignore_date := none,
    processed_date := none, ll_prev := some 2, ll_next := none,
    last_base_commit_sha := none }

def qABC : CfbotQueue :=
  { items := [qiA, qiB, qiC], current_queue_item := some 1, next_id := 4 }

theorem qABC_wf : QueueWF qABC :=
  ⟨[qiA, qiB, qiC], List.Perm.refl _, ⟨rfl, rfl, rfl, rfl, rfl, rfl, trivial⟩,
    by decide, by decide, ⟨qiA, by decide⟩⟩

/-- C7: removing an existing item I splices it out by rewriting its
neighbors' prev/next links: the result is well formed, drops exactly the row
with I's id while every other row survives with its neighbor links patched
(prev-neighbor's next := I.next, next-neighbor's prev := I.prev); if the
cursor pointed at I it advances to I.next, wrapping to the first item when
I.next is null, and becomes null when I was the sole element, otherwise the
cursor is unchanged; removing an unknown id fails with a not-found error;
and on the queue [A, B, C] with cursor A, remove(A) yields [B, C] with
cursor B, B.prev null and C.next null. -/
theorem claim_C7 (q : CfbotQueue) (iid : Nat) (I : QItem)
    (hwf : QueueWF q) (hfound : findItem q iid = some I) :
    (∃ q', remove_item q iid = .ok q' ∧ QueueWF q' ∧ q'.next_id = q.next_id ∧
      (∀ it ∈ q'.items, it.id ≠ iid) ∧
      (∀ it ∈ q.items, it.id ≠ iid →
        ({ it with
           ll_next := if I.ll_prev = some it.id then I.ll_next else it.ll_next
           ll_prev := if I.ll_next = some it.id then I.ll_prev else it.ll_prev } :
          QItem) ∈ q'.items) ∧
      (q.current_queue_item ≠ some iid →
        q'.current_queue_item = q.current_queue_item) ∧
      (q.current_queue_item = some iid →
        (∀ n, I.ll_next = some n → q'.current_queue_item = some n) ∧
        (I.ll_next = none → q.items.length = 1 → q'.current_queue_item = none) ∧
        (I.ll_next = none → 1 < q.items.length →
          ∃ f ∈ q.items, f.ll_prev = none ∧ q'.current_queue_item = some f.id))) ∧
    (∀ j, findItem q j = none → remove_item q j = .error (removeNotFoundMsg j)) ∧
    remove_item qABC 1 = .ok
      { items := [{ qiB with ll_prev := none }, qiC]
        current_queue_item := some 2
        next_id := 4 } := by
  refine ⟨?_, ?_, rfl⟩
  · obtain ⟨q', h1, h2, h3, h4, -, h6, h7, h8⟩ := remove_item_wf q iid I hwf hfound
    exact ⟨q', h1, h2, h3, h4, h6, h7, h8⟩
  · intro j hj
    simp [remove_item, hj]

theorem claim_C7_witness :
    remove_item qABC 1 = .ok
      { items := [{ qiB with ll_prev := none }, qiC]
        current_queue_item := some 2
        next_id := 4 } ∧
    remove_item qABC 9 = .error (removeNotFoundMsg 9) := by
  obtain ⟨-, h2, h3⟩ := claim_C7 qABC 1 qiA qABC_wf rfl
  exact ⟨h3, h2 9 rfl⟩

theorem insertWalk_break_single (q : CfbotQueue) (first : Option QItem)
    (f : Nat) (li : QItem) (cur prev : Option QItem)
    (hqcne : ¬ q.current_queue_item = none)
    (h2 : li.ll_next = none ∧ li.ll_prev = none) :
    insertWalk q first (f + 1) (some li) cur prev = some (some li) := by
  simp only [insertWalk]
  rw [if_neg hqcne, if_pos h2]

theorem insertWalk_break_cursor (q : CfbotQueue) (first : Option QItem)
    (f : Nat) (li : QItem) (cur prev : Option QItem)
    (hqcne : ¬ q.current_queue_item = none)
    (hns : ¬ (li.ll_next = none ∧ li.ll_prev = none))
    (h3 : cur.isSome = true ∧ some li.id = q.current_queue_item) :
    insertWalk q first (f + 1) (some li) cur prev = some prev := by
  simp only [insertWalk]
  rw [if_neg hqcne, if_neg hns, if_pos h3]

theorem insertWalk_break_proc (q : CfbotQueue) (first : Option QItem)
    (f : Nat) (li : QItem) (cur prev : Option QItem)
    (hqcne : ¬ q.current_queue_item = none)
    (hns : ¬ (li.ll_next = none ∧ li.ll_prev = none))
    (hncur : ¬ (cur.isSome = true ∧ some li.id = q.current_queue_item))
    (h4 : cur.isSome = true ∧ li.processed_date ≠ none) :
    insertWalk q first (f + 1) (some li) cur prev = some prev := by
  simp only [insertWalk]
  rw [if_neg hqcne, if_neg hns, if_neg hncur, if_pos h4]

theorem insertWalk_step (q : CfbotQueue) (first : Option QItem)
    (f : Nat) (li : QItem) (cur prev : Option QItem)
    (hqcne : ¬ q.current_queue_item = none)
    (hns : ¬ (li.ll_next = none ∧ li.ll_prev = none))
    (hncur : ¬ (cur.isSome = true ∧ some li.id = q.current_queue_item))
    (hnproc : ¬ (cur.isSome = true ∧ li.processed_date ≠ none)) :
    insertWalk q first (f + 1) (some li) cur prev =
      insertWalk q first f
        (match li.ll_next with
         | none => first
         | some nid => q.items.find? (fun it => it.id = nid))
        (if cur = none ∧ some li.id = q.current_queue_item then some li else cur)
        (some li) := by
  simp only [insertWalk]
  rw [if_neg hqcne, if_neg hns, if_neg hncur, if_neg hnproc]

theorem walk_post (q : CfbotQueue) (l : List QItem) (c : Nat) (first : Option QItem)
    (hperm : q.items.Perm l) (hch : Chain none l)
    (hnd : (q.items.map QItem.id).Nodup)
    (hqc : q.current_queue_item = some c) :
    ∀ (B : List QItem) (b : QItem) (A : List QItem), l = A ++ b :: B →
      c ∈ (b :: B).map QItem.id →
      ∀ (p : QItem), p ∈ q.items → ∀ (cur : Option QItem), cur.isSome = true →
      ∀ (fuel : Nat), B.length < fuel →
      ∃ t, t ∈ q.items ∧
        insertWalk q first fuel (some b) cur (some p) = some (some t) := by
  intro B
  induction B with
  | nil =>
    intro b A hl hcb p hp cur hcur fuel hfuel
    obtain ⟨f, rfl⟩ : ∃ f, fuel = f + 1 := ⟨fuel - 1, by omega⟩
    have hqcne : ¬ q.current_queue_item = none := by rw [hqc]; simp
    have hb : b ∈ q.items := hperm.mem_iff.mpr (by rw [hl]; simp)
    simp only [List.map_cons, List.map_nil, List.mem_singleton] at hcb
    by_cases h2 : b.ll_next = none ∧ b.ll_prev = none
    · exact ⟨b, hb, insertWalk_break_single q first f b cur (some p) hqcne h2⟩
    · refine ⟨p, hp,
        insertWalk_break_cursor q first f b cur (some p) hqcne h2 ⟨hcur, ?_⟩⟩
      rw [hqc, hcb]
  | cons b2 B' ih =>
    intro b A hl hcb p hp cur hcur fuel hfuel
    obtain ⟨f, rfl⟩ : ∃ f, fuel = f + 1 := ⟨fuel - 1, by omega⟩
    have hqcne : ¬ q.current_queue_item = none := by rw [hqc]; simp
    have hb : b ∈ q.items := hperm.mem_iff.mpr (by rw [hl]; simp)
    by_cases h2 : b.ll_next = none ∧ b.ll_prev = none
    · exact ⟨b, hb, insertWalk_break_single q first f b cur (some p) hqcne h2⟩
    by_cases h3 : some b.id = q.current_queue_item
    · exact ⟨p, hp,
        insertWalk_break_cursor q first f b cur (some p) hqcne h2 ⟨hcur, h3⟩⟩
    by_cases h4 : b.processed_date ≠ none
    · exact ⟨p, hp, insertWalk_break_proc q first f b cur (some p) hqcne h2
        (fun hh => h3 hh.2) ⟨hcur, h4⟩⟩
    have hnext : b.ll_next = some b2.id := by
      have h := chain_split none A b (b2 :: B') (by rw [← hl]; exact hch)
      simpa [headId] using h.2.1
    have hfind : q.items.find? (fun it => decide (it.id = b2.id)) = some b2 :=
      find?_id_of_perm hperm hnd (by rw [hl]; simp)
    have hcne : ¬ (cur = none ∧ some b.id = q.current_queue_item) := by
      intro hh
      rw [hh.1] at hcur
      simp at hcur
    have hcB' : c ∈ (b2 :: B').map QItem.id := by
      simp only [List.map_cons, List.mem_cons] at hcb
      rcases hcb with h | h
      · exact absurd (by rw [hqc, h] : some b.id = q.current_queue_item) h3
      · simpa using h
    obtain ⟨t, ht, heq⟩ := ih b2 (A ++ [b]) (by rw [hl]; simp) hcB' b hb cur hcur f
      (by simp only [List.length_cons] at hfuel; omega)
    refine ⟨t, ht, ?_⟩
    rw [insertWalk_step q first f b cur (some p) hqcne h2
      (fun hh => h3 hh.2) (fun hh => h4 hh.2), if_neg hcne]
    simp only [hnext, hfind]
    exact heq

theorem walk_mid (q : CfbotQueue) (l : List QItem) (c : Nat)
    (hperm : q.items.Perm l) (hch : Chain none l)
    (hnd : (q.items.map QItem.id).Nodup)
    (hqc : q.current_queue_item = some c)
    (hcl : c ∈ l.map QItem.id) :
    ∀ (B : List QItem) (b : QItem) (A : List QItem), l = A ++ b :: B →
      ∀ (p : QItem), p ∈ q.items → ∀ (cur : Option QItem), cur.isSome = true →
      ∀ (fuel : Nat), B.length + l.length + 1 < fuel →
      ∃ t, t ∈ q.items ∧
        insertWalk q (get_first_item q) fuel (some b) cur (some p) = some (some t) := by
  intro B
  induction B with
  | nil =>
    intro b A hl p hp cur hcur fuel hfuel
    obtain ⟨f, rfl⟩ : ∃ f, fuel = f + 1 := ⟨fuel - 1, by omega⟩
    have hqcne : ¬ q.current_queue_item = none := by rw [hqc]; simp
    have hb : b ∈ q.items := hperm.mem_iff.mpr (by rw [hl]; simp)
    by_cases h2 : b.ll_next = none ∧ b.ll_prev = none
    · exact ⟨b, hb, insertWalk_break_single q (get_first_item q) f b cur (some p) hqcne h2⟩
    by_cases h3 : some b.id = q.current_queue_item
    · exact ⟨p, hp, insertWalk_break_cursor q (get_first_item q) f b cur (some p)
        hqcne h2 ⟨hcur, h3⟩⟩
    by_cases h4 : b.processed_date ≠ none
    · exact ⟨p, hp, insertWalk_break_proc q (get_first_item q) f b cur (some p)
        hqcne h2 (fun hh => h3 hh.2) ⟨hcur, h4⟩⟩
    have hbnext : b.ll_next = none := by
      have h := chain_split none A b [] (by rw [← hl]; exact hch)
      simpa [headId] using h.2.1
    have hcne : ¬ (cur = none ∧ some b.id = q.current_queue_item) := by
      intro hh
      rw [hh.1] at hcur
      simp at hcur
    cases hL : l with
    | nil =>
      rw [hL] at hl
      simp at hl
    | cons x xs =>
      have hfirst : get_first_item q = some x :=
        get_first_of_chain q x xs (by rw [← hL]; exact hperm) (by rw [← hL]; exact hch)
      obtain ⟨t, ht, heq⟩ := walk_post q l c (get_first_item q) hperm hch hnd hqc
        xs x [] (by rw [hL]; rfl) (by rw [hL] at hcl; simpa using hcl) b hb cur hcur f
        (by rw [hL] at hfuel; simp at hfuel; omega)
      refine ⟨t, ht, ?_⟩
      rw [insertWalk_step q (get_first_item q) f b cur (some p) hqcne h2
        (fun hh => h3 hh.2) (fun hh => h4 hh.2), if_neg hcne]
      simp only [hbnext, hfirst]
      rw [hfirst] at heq
      exact heq
  | cons b2 B' ih =>
    intro b A hl p hp cur hcur fuel hfuel
    obtain ⟨f, rfl⟩ : ∃ f, fuel = f + 1 := ⟨fuel - 1, by omega⟩
    have hqcne : ¬ q.current_queue_item = none := by rw [hqc]; simp
    have hb : b ∈ q.items := hperm.mem_iff.mpr (by rw [hl]; simp)
    by_cases h2 : b.ll_next = none ∧ b.ll_prev = none
    · exact ⟨b, hb, insertWalk_break_single q (get_first_item q) f b cur (some p) hqcne h2⟩
    by_cases h3 : some b.id = q.current_queue_item
    · exact ⟨p, hp, insertWalk_break_cursor q (get_first_item q) f b cur (some p)
        hqcne h2 ⟨hcur, h3⟩⟩
    by_cases h4 : b.processed_date ≠ none
    · exact ⟨p, hp, insertWalk_break_proc q (get_first_item q) f b cur (some p)
        hqcne h2 (fun hh => h3 hh.2) ⟨hcur, h4⟩⟩
    have hnext : b.ll_next = some b2.id := by
      have h := chain_split none A b (b2 :: B') (by rw [← hl]; exact hch)
      simpa [headId] using h.2.1
    have hfind : q.items.find? (fun it => decide (it.id = b2.id)) = some b2 :=
      find?_id_of_perm hperm hnd (by rw [hl]; simp)
    have hcne : ¬ (cur = none ∧ some b.id = q.current_queue_item) := by
      intro hh
      rw [hh.1] at hcur
      simp at hcur
    obtain ⟨t, ht, heq⟩ := ih b2 (A ++ [b]) (by rw [hl]; simp) b hb cur hcur f
      (by simp only [List.length_cons] at hfuel ⊢; omega)
    refine ⟨t, ht, ?_⟩
    rw [insertWalk_step q (get_first_item q) f b cur (some p) hqcne h2
      (fun hh => h3 hh.2) (fun hh => h4 hh.2), if_neg hcne]
    simp only [hnext, hfind]
    exact heq

theorem walk_pre (q : CfbotQueue) (l : List QItem) (c : Nat)
    (hperm : q.items.Perm l) (hch : Chain none l)
    (hnd : (q.items.map QItem.id).Nodup)
    (hqc : q.current_queue_item = some c) :
    ∀ (B : List QItem) (b : QItem) (A : List QItem), l = A ++ b :: B →
      c ∈ (b :: B).map QItem.id →
      ∀ (prev : Option QItem), (∀ x, prev = some x → x ∈ q.items) →
      ∀ (fuel : Nat), (b :: B).length + l.length + 1 < fuel →
      ∃ t, t ∈ q.items ∧
        insertWalk q (get_first_item q) fuel (some b) none prev = some (some t) := by
  intro B
  induction B with
  | nil =>
    intro b A hl hcb prev hprev fuel hfuel
    obtain ⟨f, rfl⟩ : ∃ f, fuel = f + 1 := ⟨fuel - 1, by omega⟩
    have hqcne : ¬ q.current_queue_item = none := by rw [hqc]; simp
    have hb : b ∈ q.items := hperm.mem_iff.mpr (by rw [hl]; simp)
    simp only [List.map_cons, List.map_nil, List.mem_singleton] at hcb
    by_cases h2 : b.ll_next = none ∧ b.ll_prev = none
    · exact ⟨b, hb, insertWalk_break_single q (get_first_item q) f b none prev hqcne h2⟩
    have hbnext : b.ll_next = none := by
      have h := chain_split none A b [] (by rw [← hl]; exact hch)
      simpa [headId] using h.2.1
    have hcmem : c ∈ l.map QItem.id :=
      List.mem_map.mpr ⟨b, by rw [hl]; simp, hcb.symm⟩
    cases hL : l with
    | nil =>
      rw [hL] at hl
      simp at hl
    | cons x xs =>
      have hfirst : get_first_item q = some x :=
        get_first_of_chain q x xs (by rw [← hL]; exact hperm) (by rw [← hL]; exact hch)
      obtain ⟨t, ht, heq⟩ := walk_post q l c (get_first_item q) hperm hch hnd hqc
        xs x [] (by rw [hL]; rfl) (by rw [hL] at hcmem; simpa using hcmem) b hb
        (some b) (by simp) f
        (by rw [hL] at hfuel; simp at hfuel; omega)
      refine ⟨t, ht, ?_⟩
      rw [insertWalk_step q (get_first_item q) f b none prev hqcne h2
        (by simp) (by simp), if_pos ⟨rfl, by rw [hqc, hcb]⟩]
      simp only [hbnext, hfirst]
      rw [hfirst] at heq
      exact heq
  | cons b2 B' ih =>
    intro b A hl hcb prev hprev fuel hfuel
    obtain ⟨f, rfl⟩ : ∃ f, fuel = f + 1 := ⟨fuel - 1, by omega⟩
    have hqcne : ¬ q.current_queue_item = none := by rw [hqc]; simp
    have hb : b ∈ q.items := hperm.mem_iff.mpr (by rw [hl]; simp)
    by_cases h2 : b.ll_next = none ∧ b.ll_prev = none
    · exact ⟨b, hb, insertWalk_break_single q (get_first_item q) f b none prev hqcne h2⟩
    have hnext : b.ll_next = some b2.id := by
      have h := chain_split none A b (b2 :: B') (by rw [← hl]; exact hch)
      simpa [headId] using h.2.1
    have hfind : q.items.find? (fun it => decide (it.id = b2.id)) = some b2 :=
      find?_id_of_perm hperm hnd (by rw [hl]; simp)
    by_cases hbc : b.id = c
    · have hcmem : c ∈ l.map QItem.id :=
        List.mem_map.mpr ⟨b, by rw [hl]; simp, hbc⟩
      obtain ⟨t, ht, heq⟩ := walk_mid q l c hperm hch hnd hqc hcmem B' b2 (A ++ [b])
        (by rw [hl]; simp) b hb (some b) (by simp) f
        (by simp only [List.length_cons] at hfuel ⊢; omega)
      refine ⟨t, ht, ?_⟩
      rw [insertWalk_step q (get_first_item q) f b none prev hqcne h2
        (by simp) (by simp), if_pos ⟨rfl, by rw [hqc, hbc]⟩]
      simp only [hnext, hfind]
      exact heq
    · have hcB' : c ∈ (b2 :: B').map QItem.id := by
        simp only [List.map_cons, List.mem_cons] at hcb
        rcases hcb with h | h
        · exact absurd h.symm hbc
        · simpa using h
      obtain ⟨t, ht, heq⟩ := ih b2 (A ++ [b]) (by rw [hl]; simp) hcB' (some b)
        (fun y hy => by injection hy with h; rw [← h]; exact hb) f
        (by simp only [List.length_cons] at hfuel ⊢; omega)
      refine ⟨t, ht, ?_⟩
      rw [insertWalk_step q (get_first_item q) f b none prev hqcne h2
        (by simp) (by simp),
        if_neg (fun hh => hbc (Option.some.inj (hh.2.trans hqc)))]
      simp only [hnext, hfind]
      exact heq

theorem walk_terminates (q : CfbotQueue) (c : Nat) (l : List QItem)
    (hperm : q.items.Perm l) (hch : Chain none l)
    (hnd : (q.items.map QItem.id).Nodup)
    (hqc : q.current_queue_item = some c)
    (hcl : ∃ it ∈ l, it.id = c) :
    ∃ t, t ∈ q.items ∧
      insertWalk q (get_first_item q) (walkFuel q) (get_first_item q) none none =
        some (some t) := by
  obtain ⟨it, hitl, hitid⟩ := hcl
  cases hL : l with
  | nil =>
    rw [hL] at hitl
    cases hitl
  | cons x xs =>
    have hfirst : get_first_item q = some x :=
      get_first_of_chain q x xs (by rw [← hL]; exact hperm) (by rw [← hL]; exact hch)
    have hlen : l.length = q.items.length := hperm.length_eq.symm
    obtain ⟨t, ht, heq⟩ := walk_pre q l c hperm hch hnd hqc xs x [] (by rw [hL]; rfl)
      (by
        rw [hL] at hitl
        exact List.mem_map.mpr ⟨it, hitl, hitid⟩)
      none (fun y hy => by cases hy) (walkFuel q)
      (by
        unfold walkFuel
        rw [hL] at hlen
        rw [hL]
        simp only [List.length_cons] at hlen ⊢
        omega)
    refine ⟨t, ht, ?_⟩
    rw [hfirst] at heq ⊢
    exact heq

theorem insert_fresh_eq_place (q : CfbotQueue) (pid : Nat) (mid : String) (t : QItem)
    (hwalk : insertWalk q (get_first_item q) (walkFuel q) (get_first_item q)
      none none = some (some t)) :
    insert_fresh q pid mid = insertPlace q (some t) pid mid := by
  simp only [insert_fresh, hwalk]

theorem insertPlace_sentinel (q : CfbotQueue) (t : QItem) (pid : Nat) (mid : String)
    (hqcne : ¬ q.current_queue_item = none) (htnext : t.ll_next = none) :
    insertPlace q (some t) pid mid = .ok
      (updRow (updRow
        { q with
          items := q.items ++
            [{ id := q.next_id, patch_id := pid, message_id := mid
               ignore_date := none, processed_date := none
               ll_prev := some t.id, ll_next := some 0
               last_base_commit_sha := none }]
          next_id := q.next_id + 1 }
        t.id (fun it => { it with ll_next := some q.next_id }))
        q.next_id (fun it => { it with ll_next := none }),
       { id := q.next_id, patch_id := pid, message_id := mid
         ignore_date := none, processed_date := none
         ll_prev := some t.id, ll_next := none
         last_base_commit_sha := none }) := by
  simp only [insertPlace, htnext]
  rw [if_neg hqcne, if_pos trivial]

theorem insertPlace_link (q : CfbotQueue) (t : QItem) (n : Nat) (pid : Nat)
    (mid : String) (y : QItem)
    (hqcne : ¬ q.current_queue_item = none) (htnext : t.ll_next = some n)
    (hfind1 : findItem
      { q with
        items := q.items ++
          [{ id := q.next_id, patch_id := pid, message_id := mid
             ignore_date := none, processed_date := none
             ll_prev := some t.id, ll_next := some n
             last_base_commit_sha := none }]
        next_id := q.next_id + 1 } n = some y)
    (hn0 : n ≠ 0) :
    insertPlace q (some t) pid mid = .ok
      (updRow (updRow
        { q with
          items := q.items ++
            [{ id := q.next_id, patch_id := pid, message_id := mid
               ignore_date := none, processed_date := none
               ll_prev := some t.id, ll_next := some n
               last_base_commit_sha := none }]
          next_id := q.next_id + 1 }
        n (fun it => { it with ll_prev := some q.next_id }))
        t.id (fun it => { it with ll_next := some q.next_id }),
       { id := q.next_id, patch_id := pid, message_id := mid
         ignore_date := none, processed_date := none
         ll_prev := some t.id, ll_next := some n
         last_base_commit_sha := none }) := by
  simp only [insertPlace, htnext]
  rw [if_neg hqcne]
  rw [hfind1]
  simp [hn0]

theorem nodup_middle_not_mem (L1 : List QItem) (t : QItem) (L2 : List QItem)
    (hnd : ((L1 ++ t :: L2).map QItem.id).Nodup) :
    t.id ∉ L1.map QItem.id ∧ t.id ∉ L2.map QItem.id := by
  rw [List.map_append, List.map_cons, List.nodup_append] at hnd
  obtain ⟨h1, h2, h3⟩ := hnd
  rw [List.nodup_cons] at h2
  exact ⟨fun hmem => h3 hmem (by simp), h2.1⟩

theorem updFn_field_pres (tid : Nat) (f : QItem → QItem)
    (hf : ∀ y, (f y).id = y.id ∧ (f y).patch_id = y.patch_id ∧
      (f y).message_id = y.message_id) (y : QItem) :
    (updFn tid f y).id = y.id ∧ (updFn tid f y).patch_id = y.patch_id ∧
      (updFn tid f y).message_id = y.message_id := by
  unfold updFn
  split
  · exact hf y
  · exact ⟨rfl, rfl, rfl⟩

theorem insert_fresh_empty (q : CfbotQueue) (pid : Nat) (mid : String)
    (hqc : q.current_queue_item = none) (hitems : q.items = []) :
    insert_fresh q pid mid = .ok
      ({ items := q.items ++
          [{ id := q.next_id, patch_id := pid, message_id := mid
             ignore_date := none, processed_date := none
             ll_prev := none, ll_next := none
             last_base_commit_sha := none }]
         current_queue_item := some q.next_id
         next_id := q.next_id + 1 },
       { id := q.next_id, patch_id := pid, message_id := mid
         ignore_date := none, processed_date := none
         ll_prev := none, ll_next := none
         last_base_commit_sha := none }) := by
  have hfirst : get_first_item q = none := by
    unfold get_first_item
    rw [hitems]
    rfl
  simp only [insert_fresh, hfirst, insertWalk, insertPlace]
  rw [if_pos hqc]

theorem insertPlace_sentinel_spec (q : CfbotQueue) (t : QItem) (pid : Nat)
    (mid : String) (L1 : List QItem) (c : Nat)
    (hperm : q.items.Perm (L1 ++ [t]))
    (hch : Chain none (L1 ++ [t]))
    (hnd : (q.items.map QItem.id).Nodup)
    (hbound : ∀ it ∈ q.items, 1 ≤ it.id ∧ it.id < q.next_id)
    (hqc : q.current_queue_item = some c)
    (hcmem : ∃ it ∈ L1 ++ [t], it.id = c)
    (hpos : 1 ≤ q.next_id) :
    ∃ q' ni, insertPlace q (some t) pid mid = .ok (q', ni) ∧
      ni.patch_id = pid ∧ ni.message_id = mid ∧ ni.id = q.next_id ∧
      q'.next_id = q.next_id + 1 ∧ QueueWF q' ∧
      ∃ g : QItem → QItem,
        (∀ y, (g y).id = y.id ∧ (g y).patch_id = y.patch_id ∧
          (g y).message_id = y.message_id) ∧
        q'.items = q.items.map g ++ [ni] := by
  have hqcne : ¬ q.current_queue_item = none := by rw [hqc]; simp
  have htq : t ∈ q.items := hperm.mem_iff.mpr (by simp)
  have htid_lt : t.id < q.next_id := (hbound t htq).2
  have hndl := ((hperm.map QItem.id).nodup_iff).mp hnd
  have ht1 : t.id ∉ L1.map QItem.id := (nodup_middle_not_mem L1 t [] hndl).1
  have hsplit := chain_split none L1 t [] hch
  have htnext : t.ll_next = none := by simpa [headId] using hsplit.2.1
  have hnid_not : q.next_id ∉ q.items.map QItem.id := by
    intro hmem
    obtain ⟨y, hy, hyid⟩ := List.mem_map.mp hmem
    have := (hbound y hy).2
    omega
  have hne1 : q.next_id ≠ t.id := by omega
  have heq := insertPlace_sentinel q t pid mid hqcne htnext
  have hTniS : updFn t.id (fun it => { it with ll_next := some q.next_id })
      { id := q.next_id, patch_id := pid, message_id := mid
        ignore_date := none, processed_date := none
        ll_prev := some t.id, ll_next := some 0
        last_base_commit_sha := none } =
      { id := q.next_id, patch_id := pid, message_id := mid
        ignore_date := none, processed_date := none
        ll_prev := some t.id, ll_next := some 0
        last_base_commit_sha := none } := by
    simp [updFn, hne1]
  have hNfix : updFn q.next_id (fun it => { it with ll_next := none })
      { id := q.next_id, patch_id := pid, message_id := mid
        ignore_date := none, processed_date := none
        ll_prev := some t.id, ll_next := some 0
        last_base_commit_sha := none } =
      { id := q.next_id, patch_id := pid, message_id := mid
        ignore_date := none, processed_date := none
        ll_prev := some t.id, ll_next := none
        last_base_commit_sha := none } := by
    simp [updFn]
  have hTt : updFn t.id (fun it => { it with ll_next := some q.next_id }) t =
      { t with ll_next := some q.next_id } := by
    simp [updFn]
  have hinner : (q.items.map (updFn t.id
        (fun it => { it with ll_next := some q.next_id }))).map
      (updFn q.next_id (fun it => { it with ll_next := none })) =
      q.items.map (updFn t.id (fun it => { it with ll_next := some q.next_id })) := by
    apply map_updFn_of_not_mem
    rw [map_id_updFn q.items t.id (fun it => { it with ll_next := some q.next_id })
      (fun y => rfl)]
    exact hnid_not
  have hitems' : (updRow (updRow
      { q with
        items := q.items ++
          [{ id := q.next_id, patch_id := pid, message_id := mid
             ignore_date := none, processed_date := none
             ll_prev := some t.id, ll_next := some 0
             last_base_commit_sha := none }]
        next_id := q.next_id + 1 }
      t.id (fun it => { it with ll_next := some q.next_id }))
      q.next_id (fun it => { it with ll_next := none })).items =
      q.items.map (updFn t.id (fun it => { it with ll_next := some q.next_id })) ++
      [{ id := q.next_id, patch_id := pid, message_id := mid
         ignore_date := none, processed_date := none
         ll_prev := some t.id, ll_next := none
         last_base_commit_sha := none }] := by
    rw [updRow_eq_map, updRow_eq_map]
    show ((q.items ++ _).map _).map _ = _
    rw [List.map_append, List.map_append]
    simp only [List.map_cons, List.map_nil, hTniS, hNfix, hinner]
  have hmapl : (L1 ++ [t]).map (updFn t.id
      (fun it => { it with ll_next := some q.next_id })) =
      L1 ++ [{ t with ll_next := some q.next_id }] := by
    rw [List.map_append, map_updFn_of_not_mem L1 t.id _ ht1]
    simp only [List.map_cons, List.map_nil, hTt]
  have hchain' := chain_insert_after L1 none t []
    { id := q.next_id, patch_id := pid, message_id := mid
      ignore_date := none, processed_date := none
      ll_prev := some t.id, ll_next := none
      last_base_commit_sha := none } hch rfl (by rw [htnext])
  refine ⟨_, _, heq, rfl, rfl, rfl, rfl, ?_,
    updFn t.id (fun it => { it with ll_next := some q.next_id }),
    updFn_field_pres t.id _ (fun y => ⟨rfl, rfl, rfl⟩), hitems'⟩
  refine ⟨L1 ++ { t with ll_next := some q.next_id } ::
    [{ id := q.next_id, patch_id := pid, message_id := mid
       ignore_date := none, processed_date := none
       ll_prev := some t.id, ll_next := none
       last_base_commit_sha := none }], ?_, ?_, ?_, ?_, ?_⟩
  · rw [hitems']
    have h1 := hperm.map (updFn t.id (fun it => { it with ll_next := some q.next_id }))
    rw [hmapl] at h1
    have h2 := h1.append_right
      [{ id := q.next_id, patch_id := pid, message_id := mid
         ignore_date := none, processed_date := none
         ll_prev := some t.id, ll_next := none
         last_base_commit_sha := none }]
    simpa [List.append_assoc] using h2
  · exact hchain'
  · rw [hitems', List.map_append,
      map_id_updFn q.items t.id (fun it => { it with ll_next := some q.next_id })
        (fun y => rfl),
      List.nodup_append]
    refine ⟨hnd, by simp, fun a ha hb => ?_⟩
    simp at hb
    rw [hb] at ha
    exact hnid_not ha
  · intro it hit
    rw [hitems'] at hit
    have hnid2 : (updRow (updRow
        { q with
          items := q.items ++
            [{ id := q.next_id, patch_id := pid, message_id := mid
               ignore_date := none, processed_date := none
               ll_prev := some t.id, ll_next := some 0
               last_base_commit_sha := none }]
          next_id := q.next_id + 1 }
        t.id (fun it => { it with ll_next := some q.next_id }))
        q.next_id (fun it => { it with ll_next := none })).next_id = q.next_id + 1 := rfl
    rw [hnid2]
    rcases List.mem_append.mp hit with h | h
    · obtain ⟨y, hy, hyeq⟩ := List.mem_map.mp h
      have hid : it.id = y.id := by
        rw [← hyeq]
        exact (updFn_field_pres t.id
          (fun it => { it with ll_next := some q.next_id })
          (fun z => ⟨rfl, rfl, rfl⟩) y).1
      have := hbound y hy
      rw [hid]
      omega
    · simp at h
      rw [h]
      exact ⟨hpos, Nat.lt_succ_self q.next_id⟩
  · have hq'c : (updRow (updRow
        { q with
          items := q.items ++
            [{ id := q.next_id, patch_id := pid, message_id := mid
               ignore_date := none, processed_date := none
               ll_prev := some t.id, ll_next := some 0
               last_base_commit_sha := none }]
          next_id := q.next_id + 1 }
        t.id (fun it => { it with ll_next := some q.next_id }))
        q.next_id (fun it => { it with ll_next := none })).current_queue_item =
        some c := hqc
    rw [hq'c]
    obtain ⟨itc, hitcl, hitcid⟩ := hcmem
    rcases List.mem_append.mp hitcl with h | h
    · exact ⟨itc, List.mem_append.mpr (Or.inl h), hitcid⟩
    · simp at h
      refine ⟨{ t with ll_next := some q.next_id }, by simp, ?_⟩
      rw [h] at hitcid
      exact hitcid

theorem insertPlace_link_spec (q : CfbotQueue) (t w : QItem) (pid : Nat)
    (mid : String) (L1 L2 : List QItem) (c : Nat)
    (hperm : q.items.Perm (L1 ++ t :: w :: L2))
    (hch : Chain none (L1 ++ t :: w :: L2))
    (hnd : (q.items.map QItem.id).Nodup)
    (hbound : ∀ it ∈ q.items, 1 ≤ it.id ∧ it.id < q.next_id)
    (hqc : q.current_queue_item = some c)
    (hcmem : ∃ it ∈ L1 ++ t :: w :: L2, it.id = c)
    (hpos : 1 ≤ q.next_id) :
    ∃ q' ni, insertPlace q (some t) pid mid = .ok (q', ni) ∧
      ni.patch_id = pid ∧ ni.message_id = mid ∧ ni.id = q.next_id ∧
      q'.next_id = q.next_id + 1 ∧ QueueWF q' ∧
      ∃ g : QItem → QItem,
        (∀ y, (g y).id = y.id ∧ (g y).patch_id = y.patch_id ∧
          (g y).message_id = y.message_id) ∧
        q'.items = q.items.map g ++ [ni] := by
  have hqcne : ¬ q.current_queue_item = none := by rw [hqc]; simp
  have htq : t ∈ q.items := hperm.mem_iff.mpr (by simp)
  have hwq : w ∈ q.items := hperm.mem_iff.mpr (by simp)
  have htid_lt : t.id < q.next_id := (hbound t htq).2
  have hwid_lt : w.id < q.next_id := (hbound w hwq).2
  have hwid_pos : 1 ≤ w.id := (hbound w hwq).1
  have hndl := ((hperm.map QItem.id).nodup_iff).mp hnd
  obtain ⟨ht1, ht2⟩ := nodup_middle_not_mem L1 t (w :: L2) hndl
  have hndl2 : (((L1 ++ [t]) ++ w :: L2).map QItem.id).Nodup := by
    simpa [List.append_assoc] using hndl
  obtain ⟨hw1, hw2⟩ := nodup_middle_not_mem (L1 ++ [t]) w L2 hndl2
  have hneTW : t.id ≠ w.id := fun h => ht2 (by simp [h])
  have hneWT : w.id ≠ t.id := fun h => hneTW h.symm
  have htL1 : t.id ∉ L1.map QItem.id := ht1
  have htL2 : t.id ∉ L2.map QItem.id := fun hm => ht2 (by simp [hm])
  have hwL1 : w.id ∉ L1.map QItem.id := fun hm => hw1 (by
    rw [List.map_append]
    exact List.mem_append.mpr (Or.inl hm))
  have hsplit := chain_split none L1 t (w :: L2) hch
  have htnext : t.ll_next = some w.id := by simpa [headId] using hsplit.2.1
  have hnid_not : q.next_id ∉ q.items.map QItem.id := by
    intro hmem
    obtain ⟨y, hy, hyid⟩ := List.mem_map.mp hmem
    have := (hbound y hy).2
    omega
  have hne1 : q.next_id ≠ t.id := by omega
  have hneW : q.next_id ≠ w.id := by omega
  have hn0 : w.id ≠ 0 := by omega
  have hfq : q.items.find? (fun it => decide (it.id = w.id)) = some w :=
    find?_id_of_perm hperm hnd (by simp)
  have hfind1 : findItem
      { q with
        items := q.items ++
          [{ id := q.next_id, patch_id := pid, message_id := mid
             ignore_date := none, processed_date := none
             ll_prev := some t.id, ll_next := some w.id
             last_base_commit_sha := none }]
        next_id := q.next_id + 1 } w.id = some w := by
    show (q.items ++ _).find? _ = some w
    rw [List.find?_append, hfq]
    rfl
  have heq := insertPlace_link q t w.id pid mid w hqcne htnext hfind1 hn0
  have hWniL : updFn w.id (fun it => { it with ll_prev := some q.next_id })
      { id := q.next_id, patch_id := pid, message_id := mid
        ignore_date := none, processed_date := none
        ll_prev := some t.id, ll_next := some w.id
        last_base_commit_sha := none } =
      { id := q.next_id, patch_id := pid, message_id := mid
        ignore_date := none, processed_date := none
        ll_prev := some t.id, ll_next := some w.id
        last_base_commit_sha := none } := by
    simp [updFn, hneW]
  have hTniL : updFn t.id (fun it => { it with ll_next := some q.next_id })
      { id := q.next_id, patch_id := pid, message_id := mid
        ignore_date := none, processed_date := none
        ll_prev := some t.id, ll_next := some w.id
        last_base_commit_sha := none } =
      { id := q.next_id, patch_id := pid, message_id := mid
        ignore_date := none, processed_date := none
        ll_prev := some t.id, ll_next := some w.id
        last_base_commit_sha := none } := by
    simp [updFn, hne1]
  have hitems' : (updRow (updRow
      { q with
        items := q.items ++
          [{ id := q.next_id, patch_id := pid, message_id := mid
             ignore_date := none, processed_date := none
             ll_prev := some t.id, ll_next := some w.id
             last_base_commit_sha := none }]
        next_id := q.next_id + 1 }
      w.id (fun it => { it with ll_prev := some q.next_id }))
      t.id (fun it => { it with ll_next := some q.next_id })).items =
      q.items.map (updFn t.id (fun it => { it with ll_next := some q.next_id }) ∘
        updFn w.id (fun it => { it with ll_prev := some q.next_id })) ++
      [{ id := q.next_id, patch_id := pid, message_id := mid
         ignore_date := none, processed_date := none
         ll_prev := some t.id, ll_next := some w.id
         last_base_commit_sha := none }] := by
    rw [updRow_eq_map, updRow_eq_map]
    show ((q.items ++ _).map _).map _ = _
    rw [List.map_append, List.map_append]
    simp only [List.map_cons, List.map_nil, hWniL, hTniL, List.map_map]
  have hgt : (updFn t.id (fun it => { it with ll_next := some q.next_id }) ∘
      updFn w.id (fun it => { it with ll_prev := some q.next_id })) t =
      { t with ll_next := some q.next_id } := by
    simp [updFn, hneTW]
  have hgw : (updFn t.id (fun it => { it with ll_next := some q.next_id }) ∘
      updFn w.id (fun it => { it with ll_prev := some q.next_id })) w =
      { w with ll_prev := some q.next_id } := by
    simp [updFn, hneWT]
  have hmapL1 : L1.map (updFn t.id (fun it => { it with ll_next := some q.next_id }) ∘
      updFn w.id (fun it => { it with ll_prev := some q.next_id })) = L1 := by
    rw [← List.map_map, map_updFn_of_not_mem L1 w.id _ hwL1,
      map_updFn_of_not_mem L1 t.id _ htL1]
  have hmapL2 : L2.map (updFn t.id (fun it => { it with ll_next := some q.next_id }) ∘
      updFn w.id (fun it => { it with ll_prev := some q.next_id })) = L2 := by
    rw [← List.map_map, map_updFn_of_not_mem L2 w.id _ hw2,
      map_updFn_of_not_mem L2 t.id _ htL2]
  have hmapl : (L1 ++ t :: w :: L2).map
      (updFn t.id (fun it => { it with ll_next := some q.next_id }) ∘
        updFn w.id (fun it => { it with ll_prev := some q.next_id })) =
      L1 ++ { t with ll_next := some q.next_id } ::
        { w with ll_prev := some q.next_id } :: L2 := by
    rw [List.map_append]
    simp only [List.map_cons, hgt, hgw, hmapL1, hmapL2]
  have hchain' := chain_insert_after L1 none t (w :: L2)
    { id := q.next_id, patch_id := pid, message_id := mid
      ignore_date := none, processed_date := none
      ll_prev := some t.id, ll_next := some w.id
      last_base_commit_sha := none } hch rfl (by rw [htnext])
  have hids : (q.items.map
      (updFn t.id (fun it => { it with ll_next := some q.next_id }) ∘
        updFn w.id (fun it => { it with ll_prev := some q.next_id }))).map QItem.id =
      q.items.map QItem.id := by
    rw [← List.map_map]
    rw [map_id_updFn
      (q.items.map (updFn w.id (fun it => { it with ll_prev := some q.next_id })))
      t.id (fun it => { it with ll_next := some q.next_id }) (fun y => rfl)]
    rw [map_id_updFn q.items w.id
      (fun it => { it with ll_prev := some q.next_id }) (fun y => rfl)]
  refine ⟨_, _, heq, rfl, rfl, rfl, rfl, ?_,
    updFn t.id (fun it => { it with ll_next := some q.next_id }) ∘
      updFn w.id (fun it => { it with ll_prev := some q.next_id }),
    ?_, hitems'⟩
  swap
  · intro y
    obtain ⟨a1, a2, a3⟩ := updFn_field_pres w.id
      (fun it => { it with ll_prev := some q.next_id }) (fun z => ⟨rfl, rfl, rfl⟩) y
    obtain ⟨b1, b2, b3⟩ := updFn_field_pres t.id
      (fun it => { it with ll_next := some q.next_id }) (fun z => ⟨rfl, rfl, rfl⟩)
      (updFn w.id (fun it => { it with ll_prev := some q.next_id }) y)
    exact ⟨b1.trans a1, b2.trans a2, b3.trans a3⟩
  refine ⟨L1 ++ { t with ll_next := some q.next_id } ::
    { id := q.next_id, patch_id := pid, message_id := mid
      ignore_date := none, processed_date := none
      ll_prev := some t.id, ll_next := some w.id
      last_base_commit_sha := none } ::
    { w with ll_prev := some q.next_id } :: L2, ?_, ?_, ?_, ?_, ?_⟩
  · rw [hitems']
    have h1 := hperm.map
      (updFn t.id (fun it => { it with ll_next := some q.next_id }) ∘
        updFn w.id (fun it => { it with ll_prev := some q.next_id }))
    rw [hmapl] at h1
    have h2p := h1.append_right
      [{ id := q.next_id, patch_id := pid, message_id := mid
         ignore_date := none, processed_date := none
         ll_prev := some t.id, ll_next := some w.id
         last_base_commit_sha := none }]
    refine h2p.trans ?_
    have h3 := List.perm_append_singleton
      ({ id := q.next_id, patch_id := pid, message_id := mid
         ignore_date := none, processed_date := none
         ll_prev := some t.id, ll_next := some w.id
         last_base_commit_sha := none } : QItem)
      (L1 ++ { t with ll_next := some q.next_id } ::
        { w with ll_prev := some q.next_id } :: L2)
    refine h3.trans ?_
    have h4 : ((L1 ++ [{ t with ll_next := some q.next_id }]) ++
        ({ id := q.next_id, patch_id := pid, message_id := mid
           ignore_date := none, processed_date := none
           ll_prev := some t.id, ll_next := some w.id
           last_base_commit_sha := none } : QItem) ::
          { w with ll_prev := some q.next_id } :: L2).Perm
        (({ id := q.next_id, patch_id := pid, message_id := mid
            ignore_date := none, processed_date := none
            ll_prev := some t.id, ll_next := some w.id
            last_base_commit_sha := none } : QItem) ::
          ((L1 ++ [{ t with ll_next := some q.next_id }]) ++
            { w with ll_prev := some q.next_id } :: L2)) := List.perm_middle
    have he1 : (L1 ++ [{ t with ll_next := some q.next_id }]) ++
        { w with ll_prev := some q.next_id } :: L2 =
        L1 ++ { t with ll_next := some q.next_id } ::
          { w with ll_prev := some q.next_id } :: L2 := by simp
    have he2 : (L1 ++ [{ t with ll_next := some q.next_id }]) ++
        ({ id := q.next_id, patch_id := pid, message_id := mid
           ignore_date := none, processed_date := none
           ll_prev := some t.id, ll_next := some w.id
           last_base_commit_sha := none } : QItem) ::
          { w with ll_prev := some q.next_id } :: L2 =
        L1 ++ { t with ll_next := some q.next_id } ::
          ({ id := q.next_id, patch_id := pid, message_id := mid
             ignore_date := none, processed_date := none
             ll_prev := some t.id, ll_next := some w.id
             last_base_commit_sha := none } : QItem) ::
          { w with ll_prev := some q.next_id } :: L2 := by simp
    rw [he1, he2] at h4
    exact h4.symm
  · exact hchain'
  · rw [hitems', List.map_append, hids, List.nodup_append]
    refine ⟨hnd, by simp, fun a ha hb => ?_⟩
    simp at hb
    rw [hb] at ha
    exact hnid_not ha
  · intro it hit
    rw [hitems'] at hit
    have hnid2 : (updRow (updRow
        { q with
          items := q.items ++
            [{ id := q.next_id, patch_id := pid, message_id := mid
               ignore_date := none, processed_date := none
               ll_prev := some t.id, ll_next := some w.id
               last_base_commit_sha := none }]
          next_id := q.next_id + 1 }
        w.id (fun it => { it with ll_prev := some q.next_id }))
        t.id (fun it => { it with ll_next := some q.next_id })).next_id =
        q.next_id + 1 := rfl
    rw [hnid2]
    rcases List.mem_append.mp hit with h | h
    · obtain ⟨y, hy, hyeq⟩ := List.mem_map.mp h
      have hid : it.id = y.id := by
        rw [← hyeq]
        have a1 := (updFn_field_pres w.id
          (fun it => { it with ll_prev := some q.next_id })
          (fun z => ⟨rfl, rfl, rfl⟩) y).1
        have b1 := (updFn_field_pres t.id
          (fun it => { it with ll_next := some q.next_id })
          (fun z => ⟨rfl, rfl, rfl⟩)
          (updFn w.id (fun it => { it with ll_prev := some q.next_id }) y)).1
        exact b1.trans a1
      have := hbound y hy
      rw [hid]
      omega
    · simp at h
      rw [h]
      exact ⟨hpos, Nat.lt_succ_self q.next_id⟩
  · have hq'c : (updRow (updRow
        { q with
          items := q.items ++
            [{ id := q.next_id, patch_id := pid, message_id := mid
               ignore_date := none, processed_date := none
               ll_prev := some t.id, ll_next := some w.id
               last_base_commit_sha := none }]
          next_id := q.next_id + 1 }
        w.id (fun it => { it with ll_prev := some q.next_id }))
        t.id (fun it => { it with ll_next := some q.next_id })).current_queue_item =
        some c := hqc
    rw [hq'c]
    obtain ⟨itc, hitcl, hitcid⟩ := hcmem
    rcases List.mem_append.mp hitcl with h | h
    · exact ⟨itc, List.mem_append.mpr (Or.inl h), hitcid⟩
    · rcases List.mem_cons.mp h with h | h
      · refine ⟨{ t with ll_next := some q.next_id }, by simp, ?_⟩
        rw [h] at hitcid
        exact hitcid
      · rcases List.mem_cons.mp h with h | h
        · refine ⟨{ w with ll_prev := some q.next_id }, by simp, ?_⟩
          rw [h] at hitcid
          exact hitcid
        · exact ⟨itc, by simp [h], hitcid⟩

theorem insert_fresh_spec (q : CfbotQueue) (pid : Nat) (mid : String)
    (hwf : QueueWF q) (hpos : 1 ≤ q.next_id) :
    ∃ q' ni, insert_fresh q pid mid = .ok (q', ni) ∧
      ni.patch_id = pid ∧ ni.message_id = mid ∧ ni.id = q.next_id ∧
      q'.next_id = q.next_id + 1 ∧ QueueWF q' ∧
      ∃ g : QItem → QItem,
        (∀ y, (g y).id = y.id ∧ (g y).patch_id = y.patch_id ∧
          (g y).message_id = y.message_id) ∧
        q'.items = q.items.map g ++ [ni] := by
  obtain ⟨l, hperm, hch, hnd, hbound, hcurm⟩ := hwf
  cases hqc : q.current_queue_item with
  | none =>
    have hlnil : l = [] := by rw [hqc] at hcurm; exact hcurm
    have hitems : q.items = [] := by
      rw [hlnil] at hperm
      exact hperm.eq_nil
    refine ⟨_, _, insert_fresh_empty q pid mid hqc hitems, rfl, rfl, rfl, rfl, ?_,
      id, by simp, by simp⟩
    refine ⟨[{ id := q.next_id, patch_id := pid, message_id := mid
               ignore_date := none, processed_date := none
               ll_prev := none, ll_next := none
               last_base_commit_sha := none }], ?_, ⟨rfl, rfl, trivial⟩, ?_, ?_, ?_⟩
    · show (q.items ++ _).Perm _
      rw [hitems]
      exact List.Perm.refl _
    · show ((q.items ++ _).map QItem.id).Nodup
      rw [hitems]
      simp
    · intro it hit
      show 1 ≤ it.id ∧ it.id < q.next_id + 1
      rw [hitems] at hit
      simp at hit
      rw [hit]
      exact ⟨hpos, Nat.lt_succ_self q.next_id⟩
    · exact ⟨{ id := q.next_id, patch_id := pid, message_id := mid
               ignore_date := none, processed_date := none
               ll_prev := none, ll_next := none
               last_base_commit_sha := none }, by simp, rfl⟩
  | some c =>
    have hcurm' : ∃ it ∈ l, it.id = c := by rw [hqc] at hcurm; exact hcurm
    obtain ⟨t, htq, hwalk⟩ := walk_terminates q c l hperm hch hnd hqc hcurm'
    have heqp := insert_fresh_eq_place q pid mid t hwalk
    have htl : t ∈ l := hperm.mem_iff.mp htq
    obtain ⟨L1, L2, rfl⟩ := List.append_of_mem htl
    rcases L2 with _ | ⟨w, L2'⟩
    · obtain ⟨q', ni, heq2, hrest⟩ := insertPlace_sentinel_spec q t pid mid L1 c
        hperm hch hnd hbound hqc hcurm' hpos
      exact ⟨q', ni, heqp.trans heq2, hrest⟩
    · obtain ⟨q', ni, heq2, hrest⟩ := insertPlace_link_spec q t w pid mid L1 L2' c
        hperm hch hnd hbound hqc hcurm' hpos
      exact ⟨q', ni, heqp.trans heq2, hrest⟩

theorem insert_item_replace (q : CfbotQueue) (pid : Nat) (mid' : String) (e : QItem)
    (hwf : QueueWF q) (hpos : 1 ≤ q.next_id)
    (hfilter : q.items.filter (fun it => it.patch_id = pid) = [e])
    (hne : ¬ e.message_id = mid') :
    ∃ q'' ni, insert_item q pid mid' = .ok (q'', ni) ∧
      ni.message_id = mid' ∧ ni.patch_id = pid ∧
      q''.items.filter (fun it => it.patch_id = pid) = [ni] ∧
      QueueWF q'' ∧ 1 ≤ q''.next_id := by
  have hnd : (q.items.map QItem.id).Nodup := by
    obtain ⟨_, _, _, h, _, _⟩ := hwf
    exact h
  have he : e ∈ q.items := by
    have hmem : e ∈ q.items.filter (fun it => it.patch_id = pid) := by
      rw [hfilter]
      simp
    exact (List.mem_filter.mp hmem).1
  have hfind : findItem q e.id = some e :=
    find?_id_of_perm (List.Perm.refl q.items) hnd he
  obtain ⟨q', hrem, hwf', hnid', hnotiid, horigin, hframe, hcur1, hcur2⟩ :=
    remove_item_wf q e.id e hwf hfind
  have hnopid : ∀ it ∈ q'.items, ¬ (it.patch_id = pid) := by
    intro it hit hpid
    obtain ⟨it₀, hit₀, hid0, hp0, hm0⟩ := horigin it hit
    have hmem : it₀ ∈ q.items.filter (fun x => x.patch_id = pid) :=
      List.mem_filter.mpr ⟨hit₀, by
        have : it₀.patch_id = pid := by rw [← hp0]; exact hpid
        simp [this]⟩
    rw [hfilter] at hmem
    simp at hmem
    exact (hnotiid it hit) (by rw [hid0, hmem])
  have hpos' : 1 ≤ q'.next_id := by rw [hnid']; exact hpos
  obtain ⟨q'', ni, hins, hpatch, hmess, hniid, hnid'', hwf'', g, hg, hitems''⟩ :=
    insert_fresh_spec q' pid mid' hwf' hpos'
  have hitem : insert_item q pid mid' = .ok (q'', ni) := by
    simp only [insert_item, hfilter]
    rw [if_neg hne]
    simp only [hrem]
    exact hins
  have hfilter'' : q''.items.filter (fun it => it.patch_id = pid) = [ni] := by
    rw [hitems'', List.filter_append]
    have h1 : (q'.items.map g).filter (fun it => it.patch_id = pid) = [] := by
      apply List.filter_eq_nil_iff.mpr
      intro y hy
      obtain ⟨z, hz, hzeq⟩ := List.mem_map.mp hy
      simp only [decide_eq_true_eq]
      rw [← hzeq, (hg z).2.1]
      exact hnopid z hz
    rw [h1]
    simp [hpatch]
  exact ⟨q'', ni, hitem, hmess, hpatch, hfilter'', hwf'', by rw [hnid'']; omega⟩

def qEmpty : CfbotQueue := { items := [], current_queue_item := none, next_id := 1 }

def it5m1 : QItem :=
  { id := 1, patch_id := 5, message_id := "m1", ignore_date := none,
    processed_date := none, ll_prev := none, ll_next := none,
    last_base_commit_sha := none }

def it7m2 : QItem :=
  { id := 2, patch_id := 7, message_id := "m2", ignore_date := none,
    processed_date := none, ll_prev := some 1, ll_next := none,
    last_base_commit_sha := none }

def it5m3 : QItem :=
  { id := 3, patch_id := 5, message_id := "m3", ignore_date := none,
    processed_date := none, ll_prev := some 2, ll_next := none,
    last_base_commit_sha := none }

def q575a : CfbotQueue :=
  { items := [it5m1], current_queue_item := some 1, next_id := 2 }

def q575b : CfbotQueue :=
  { items := [{ it5m1 with ll_next := some 2 }, it7m2],
    current_queue_item := some 1, next_id := 3 }

def q575c : CfbotQueue :=
  { items := [{ id := 2, patch_id := 7, message_id := "m2", ignore_date := none,
                processed_date := none, ll_prev := none, ll_next := some 3,
                last_base_commit_sha := none }, it5m3],
    current_queue_item := some 2, next_id := 4 }

theorem q575b_wf : QueueWF q575b :=
  ⟨[{ it5m1 with ll_next := some 2 }, it7m2], List.Perm.refl _,
    ⟨rfl, rfl, rfl, rfl, trivial⟩, by decide, by decide,
    ⟨{ it5m1 with ll_next := some 2 }, by decide⟩⟩

/-- C5: when the queue already holds exactly one item `e` for patch `pid`,
re-inserting with the same message id returns `e` and leaves the queue
untouched; inserting with a different message id succeeds and afterwards
exactly one item exists for `pid`, carrying the new message id; and in the
concrete sequence insert(5,m1); insert(7,m2); insert(5,m3) on an empty
queue, the new item for patch 5 carries m3 and sits immediately after the
patch-7 item (its `ll_prev` is the patch-7 row, which is the head). -/
theorem claim_C5 (q : CfbotQueue) (pid : Nat) (mid mid' : String) (e : QItem)
    (hwf : QueueWF q) (hpos : 1 ≤ q.next_id)
    (hfilter : q.items.filter (fun it => it.patch_id = pid) = [e]) :
    (e.message_id = mid → insert_item q pid mid = .ok (q, e)) ∧
    (¬ e.message_id = mid' →
      (insert_item q pid mid').map (fun r =>
        ((r.1.items.filter (fun it => it.patch_id = pid)).map QItem.message_id,
          r.2.message_id, r.2.patch_id)) = .ok ([mid'], mid', pid)) ∧
    (insert_item qEmpty 5 "m1" = .ok (q575a, it5m1) ∧
     insert_item q575a 7 "m2" = .ok (q575b, it7m2) ∧
     insert_item q575b 5 "m3" = .ok (q575c, it5m3) ∧
     q575c.items.filter (fun it => it.patch_id = 5) = [it5m3] ∧
     it5m3.message_id = "m3" ∧ it5m3.ll_prev = some 2 ∧
     findItem q575c 2 = some
       { id := 2, patch_id := 7, message_id := "m2"
         ignore_date := none, processed_date := none, ll_prev := none
         ll_next := some 3, last_base_commit_sha := none }) := by
  refine ⟨?_, ?_, rfl, rfl, rfl, rfl, rfl, rfl, rfl⟩
  · intro hmsg
    simp only [insert_item, hfilter]
    rw [if_pos hmsg]
  · intro hne
    obtain ⟨q'', ni, hitem, hmess, hpatch, hfilter'', -, -⟩ :=
      insert_item_replace q pid mid' e hwf hpos hfilter hne
    rw [hitem]
    simp [Except.map, hfilter'', hmess, hpatch]

theorem claim_C5_witness :
    insert_item q575b 5 "m1" = .ok (q575b, { it5m1 with ll_next := some 2 }) ∧
    (insert_item q575b 5 "m3").map (fun r =>
      ((r.1.items.filter (fun it => it.patch_id = 5)).map QItem.message_id,
        r.2.message_id, r.2.patch_id)) = .ok (["m3"], "m3", 5) := by
  obtain ⟨h1, h2, -⟩ := claim_C5 q575b 5 "m1" "m3" { it5m1 with ll_next := some 2 }
    q575b_wf (by decide) rfl
  exact ⟨h1 rfl, h2 (by decide)⟩

theorem gam_setup (q : CfbotQueue) (l : List QItem) (c : Nat)
    (hperm : q.items.Perm l) (hch : Chain none l)
    (hnd : (q.items.map QItem.id).Nodup)
    (hcl : ∃ it ∈ l, it.id = c) :
    ∃ cur, findItem q c = some cur ∧ cur ∈ q.items ∧
      ∃ ncid nxt, findItem q ncid = some nxt ∧
        (cur.ll_next = some ncid ∨
          (cur.ll_next = none ∧ ∃ f, get_first_item q = some f ∧ f.id = ncid)) := by
  obtain ⟨itc, hitcl, hitcid⟩ := hcl
  have hlne : l ≠ [] := fun he => by rw [he] at hitcl; cases hitcl
  have hcs : ∃ cur, findItem q c = some cur := by
    cases hx : findItem q c with
    | none =>
      exfalso
      have := List.find?_eq_none.mp hx itc (hperm.mem_iff.mpr hitcl)
      simp [hitcid] at this
    | some cur => exact ⟨cur, rfl⟩
  obtain ⟨cur, hcur⟩ := hcs
  have hcurq : cur ∈ q.items := List.mem_of_find?_eq_some hcur
  refine ⟨cur, hcur, hcurq, ?_⟩
  cases hln : cur.ll_next with
  | some nn =>
    have hmem : nn ∈ l.map QItem.id :=
      chain_next_mem l cur nn hch (hperm.mem_iff.mp hcurq) hln
    obtain ⟨x, hx, hxid⟩ := List.mem_map.mp hmem
    refine ⟨nn, x, ?_, Or.inl rfl⟩
    exact find?_of_perm_singleton _ x hperm (by
      rw [← hxid]
      exact filter_id_singleton hx (((hperm.map QItem.id).nodup_iff).mp hnd))
  | none =>
    cases hL : l with
    | nil => exact absurd hL hlne
    | cons x xs =>
      have hf : get_first_item q = some x :=
        get_first_of_chain q x xs (by rw [← hL]; exact hperm) (by rw [← hL]; exact hch)
      refine ⟨x.id, x, ?_, Or.inr ⟨rfl, x, hf, rfl⟩⟩
      exact find?_id_of_perm hperm hnd (by rw [hL]; simp)

theorem gam_wf : ∀ (fuel now : Nat) (q q' : CfbotQueue) (r nx : Option QItem),
    QueueWF q → 1 ≤ q.next_id →
    get_and_move now fuel q = some (.ok (q', r, nx)) →
    QueueWF q' ∧ 1 ≤ q'.next_id := by
  intro fuel
  induction fuel with
  | zero => intro now q q' r nx _ _ h; exact Option.noConfusion h
  | succ n ih =>
    intro now q q' r nx hwf hpos h
    obtain ⟨l, hperm, hch, hnd, hbound, hcurm⟩ := hwf
    cases hqc : q.current_queue_item with
    | none =>
      simp only [get_and_move, hqc] at h
      simp only [Option.some.injEq, Except.ok.injEq, Prod.mk.injEq] at h
      obtain ⟨h1, -⟩ := h
      rw [← h1]
      exact ⟨⟨l, hperm, hch, hnd, hbound, by rw [hqc] at hcurm ⊢; exact hcurm⟩, hpos⟩
    | some cid =>
      rw [hqc] at hcurm
      obtain ⟨cur, hcur, hcurq, ncid, nxt, hnxt, hres⟩ :=
        gam_setup q l cid hperm hch hnd hcurm
      have hwfq : QueueWF q :=
        ⟨l, hperm, hch, hnd, hbound, by rw [hqc]; exact hcurm⟩
      have hwfstep := gamStep_wf q cid ncid now cur hwfq hcur hres
      rw [gam_unfold now n q cid cur ncid nxt hqc hcur hres hnxt] at h
      by_cases hig : cur.ignore_date ≠ none
      · rw [if_pos hig] at h
        exact ih now (gamStep q cid ncid now) q' r nx hwfstep hpos h
      · rw [if_neg hig] at h
        simp only [Option.some.injEq, Except.ok.injEq, Prod.mk.injEq] at h
        obtain ⟨h1, -⟩ := h
        rw [← h1]
        exact ⟨hwfstep, hpos⟩

theorem insert_item_wf (q : CfbotQueue) (pid : Nat) (mid : String)
    (q' : CfbotQueue) (r : QItem)
    (hwf : QueueWF q) (hpos : 1 ≤ q.next_id)
    (heq : insert_item q pid mid = .ok (q', r)) :
    QueueWF q' ∧ 1 ≤ q'.next_id := by
  cases hf : q.items.filter (fun it => it.patch_id = pid) with
  | nil =>
    obtain ⟨q2, ni, hins, -, -, -, hnid, hwf2, -⟩ :=
      insert_fresh_spec q pid mid hwf hpos
    rw [show insert_item q pid mid = insert_fresh q pid mid from by
      simp only [insert_item, hf], hins] at heq
    simp only [Except.ok.injEq, Prod.mk.injEq] at heq
    obtain ⟨h1, -⟩ := heq
    rw [← h1]
    exact ⟨hwf2, by rw [hnid]; omega⟩
  | cons e te =>
    cases te with
    | nil =>
      by_cases hmsg : e.message_id = mid
      · rw [show insert_item q pid mid = .ok (q, e) from by
          simp only [insert_item, hf]; rw [if_pos hmsg]] at heq
        simp only [Except.ok.injEq, Prod.mk.injEq] at heq
        obtain ⟨h1, -⟩ := heq
        rw [← h1]
        exact ⟨hwf, hpos⟩
      · obtain ⟨q'', ni, hitem, -, -, -, hwf'', hpos''⟩ :=
          insert_item_replace q pid mid e hwf hpos hf hmsg
        rw [hitem] at heq
        simp only [Except.ok.injEq, Prod.mk.injEq] at heq
        obtain ⟨h1, -⟩ := heq
        rw [← h1]
        exact ⟨hwf'', hpos''⟩
    | cons e2 te2 =>
      obtain ⟨q2, ni, hins, -, -, -, hnid, hwf2, -⟩ :=
        insert_fresh_spec q pid mid hwf hpos
      rw [show insert_item q pid mid = insert_fresh q pid mid from by
        simp only [insert_item, hf], hins] at heq
      simp only [Except.ok.injEq, Prod.mk.injEq] at heq
      obtain ⟨h1, -⟩ := heq
      rw [← h1]
      exact ⟨hwf2, by rw [hnid]; omega⟩

theorem remove_item_wf_ok (q : CfbotQueue) (iid : Nat) (q' : CfbotQueue)
    (hwf : QueueWF q) (hpos : 1 ≤ q.next_id)
    (heq : remove_item q iid = .ok q') : QueueWF q' ∧ 1 ≤ q'.next_id := by
  cases hfind : findItem q iid with
  | none =>
    rw [show remove_item q iid = .error (removeNotFoundMsg iid) from by
      simp [remove_item, hfind]] at heq
    cases heq
  | some I =>
    obtain ⟨q2, hrem, hwf2, hnid2, -⟩ := remove_item_wf q iid I hwf hfind
    rw [hrem] at heq
    simp only [Except.ok.injEq] at heq
    rw [← heq]
    exact ⟨hwf2, by rw [hnid2]; exact hpos⟩

/-- Queue states reachable from the empty queue by the three operations. -/
inductive Reach : CfbotQueue → Prop where
  | init : Reach qEmpty
  | ins (q q' : CfbotQueue) (pid : Nat) (mid : String) (r : QItem) :
      Reach q → insert_item q pid mid = .ok (q', r) → Reach q'
  | rem (q q' : CfbotQueue) (iid : Nat) :
      Reach q → remove_item q iid = .ok q' → Reach q'
  | gam (q q' : CfbotQueue) (now fuel : Nat) (r nx : Option QItem) :
      Reach q → get_and_move now fuel q = some (.ok (q', r, nx)) → Reach q'

theorem reach_wf (q : CfbotQueue) (h : Reach q) : QueueWF q ∧ 1 ≤ q.next_id := by
  induction h with
  | init =>
    refine ⟨⟨[], List.Perm.refl _, trivial, by decide, ?_, rfl⟩, by decide⟩
    intro it hit
    cases hit
  | ins qa qb pid mid r hq heq ih =>
    exact insert_item_wf qa pid mid qb r ih.1 ih.2 heq
  | rem qa qb iid hq heq ih =>
    exact remove_item_wf_ok qa iid qb ih.1 ih.2 heq
  | gam qa qb now fuel r nx hq heq ih =>
    exact gam_wf fuel now qa qb r nx ih.1 ih.2 heq

theorem chain_coh_prev (l : List QItem) (hch : Chain none l) (I : QItem)
    (hI : I ∈ l) (j : Nat) (hj : I.ll_prev = some j) :
    ∃ P ∈ l, P.id = j ∧ P.ll_next = some I.id := by
  obtain ⟨A, B, rfl⟩ := List.append_of_mem hI
  obtain ⟨hp, -, -⟩ := chain_split none A I B hch
  rw [hj] at hp
  have hne : A ≠ [] := by
    intro he
    rw [he] at hp
    exact Option.noConfusion hp
  have hlast := lastLink_eq_getLast A hne none
  rw [hlast] at hp
  have hj' : (A.getLast hne).id = j := (Option.some.inj hp).symm
  have hAeq : A ++ I :: B = A.dropLast ++ (A.getLast hne) :: I :: B := by
    conv_lhs => rw [← List.dropLast_append_getLast hne]
    simp
  have hch2 : Chain none (A.dropLast ++ (A.getLast hne) :: I :: B) := by
    rw [← hAeq]
    exact hch
  have hsp2 := chain_split none A.dropLast (A.getLast hne) (I :: B) hch2
  refine ⟨A.getLast hne, List.mem_append.mpr (Or.inl (List.getLast_mem hne)),
    hj', ?_⟩
  simpa [headId] using hsp2.2.1

theorem chain_coh_next (l : List QItem) (hch : Chain none l) (I : QItem)
    (hI : I ∈ l) (j : Nat) (hj : I.ll_next = some j) :
    ∃ N ∈ l, N.id = j ∧ N.ll_prev = some I.id := by
  obtain ⟨A, B, rfl⟩ := List.append_of_mem hI
  obtain ⟨-, hn, -⟩ := chain_split none A I B hch
  rw [hj] at hn
  cases B with
  | nil => exact Option.noConfusion hn
  | cons b bs =>
    have hbid : b.id = j := by simpa [headId] using hn.symm
    have hch2 : Chain none ((A ++ [I]) ++ b :: bs) := by
      simpa [List.append_assoc] using hch
    have hsp2 := chain_split none (A ++ [I]) b bs hch2
    have hlast : lastLink none (A ++ [I]) = some I.id := by
      rw [lastLink_eq_getLast (A ++ [I]) (by simp) none]
      simp
    refine ⟨b, by simp, hbid, ?_⟩
    rw [hsp2.1, hlast]

/-- C8: in every reachable non-empty queue state the linked-list invariant
holds: exactly one row has null `ll_prev` and exactly one has null
`ll_next`, and prev/next pointers are coherent — the row named by a
non-null `ll_prev` points back with its `ll_next`, and symmetrically. -/
theorem claim_C8 (q : CfbotQueue) (hq : Reach q) (hne : q.items ≠ []) :
    (q.items.filter (fun it => it.ll_prev = none)).length = 1 ∧
    (q.items.filter (fun it => it.ll_next = none)).length = 1 ∧
    (∀ I ∈ q.items, ∀ j, I.ll_prev = some j →
      ∃ P ∈ q.items, P.id = j ∧ P.ll_next = some I.id) ∧
    (∀ I ∈ q.items, ∀ j, I.ll_next = some j →
      ∃ N ∈ q.items, N.id = j ∧ N.ll_prev = some I.id) := by
  obtain ⟨⟨l, hperm, hch, hnd, hbound, hcurm⟩, -⟩ := reach_wf q hq
  have hlne : l ≠ [] := fun he => hne (by rw [he] at hperm; exact hperm.eq_nil)
  refine ⟨?_, ?_, ?_, ?_⟩
  · cases hL : l with
    | nil => exact absurd hL hlne
    | cons x xs =>
      have hfilt := chain_filter_prev_none x xs (by rw [← hL]; exact hch)
      have hpf := hperm.filter (fun it => it.ll_prev = none)
      rw [hL, hfilt] at hpf
      rw [hpf.length_eq]
      rfl
  · have hfilt := chain_filter_next_none l hlne none hch
    have hpf := hperm.filter (fun it => it.ll_next = none)
    rw [hfilt] at hpf
    rw [hpf.length_eq]
    rfl
  · intro I hI j hj
    obtain ⟨P, hP, hPid, hPn⟩ := chain_coh_prev l hch I (hperm.mem_iff.mp hI) j hj
    exact ⟨P, hperm.mem_iff.mpr hP, hPid, hPn⟩
  · intro I hI j hj
    obtain ⟨N, hN, hNid, hNp⟩ := chain_coh_next l hch I (hperm.mem_iff.mp hI) j hj
    exact ⟨N, hperm.mem_iff.mpr hN, hNid, hNp⟩

theorem claim_C8_witness :
    (qOne.items.filter (fun it => it.ll_prev = none)).length = 1 ∧
    (qOne.items.filter (fun it => it.ll_next = none)).length = 1 := by
  obtain ⟨h1, h2, -, -⟩ := claim_C8 qOne
    (Reach.ins qEmpty qOne 101 "msg101" qiOne Reach.init rfl) (by decide)
  exact ⟨h1, h2⟩
